import Mathlib

/-!
# The eenadu crawler (`eenadu.go`): frontier, extraction and crawl loop

A shallow embedding of `eenadu.go`.

* The two SQLite stores are explicit state: the `urls` table is a `Frontier`,
  the `articles` table a list of `Article` rows.  Every SQL statement of the
  source is one function on that state.
* A statement whose `Exec` returns an error is logged and skipped by the
  source (`log.Printf`, the loop goes on); which statements fail is an input,
  the `Faults` of an iteration.  The `log.Fatal` branches end the process and
  are not part of a run.
* The network is an oracle `fetch : String → Except String Node` standing
  for `http.Get` followed by `goquery.NewDocumentFromReader`.
* The goroutines of one batch are interleaved by an explicit schedule, one
  store call at a time.
* The goquery calls the source makes (`Find`, `Each`, `Text`, `Attr`) are
  modelled on HTML trees whose nodes are told apart by their position.
-/

namespace Eenadu

/-! ## Constants and rows -/

/-- The constant `baseURL`. -/
def baseURL : String := "https://www.eenadu.net"

/-- The constant `batchSize`. -/
def batchSize : Int := 100

/-- The struct `Article`. -/
structure Article where
  URL : String
  Title : String
  DatePublished : String
  Content : String
deriving DecidableEq, Repr

/-- One row of the `urls` table: the columns named by the INSERT statement of
`insertNewURLs`. -/
structure URLRecord where
  url : String
  visited : Bool
  scraped : Bool
deriving DecidableEq, Repr

/-- Modelled from the spec: the `urls` table.  Its CREATE TABLE statement is
not in the source; the spec makes `url` the primary key ("global unique
identity (primary key)"), which is what gives `INSERT OR IGNORE` its
insert-if-absent meaning.  Rows are kept in insertion (rowid) order. -/
structure Frontier where
  rows : List URLRecord
  key : (rows.map URLRecord.url).Nodup

/-- The URLs that have a row. -/
def Frontier.urls (db : Frontier) : List String := db.rows.map URLRecord.url

/-- The row a fresh discovery inserts: `VALUES (?, FALSE, FALSE)`. -/
def freshRow (u : String) : URLRecord := ⟨u, false, false⟩

/-! ## The frontier store -/

/-- The query of `getNextURLs`:
`SELECT url FROM urls WHERE visited = FALSE LIMIT ?`, rows scanned in table
order.  SQLite reads a negative LIMIT as no limit. -/
def selectUnvisited (limit : Int) (rows : List URLRecord) : List String :=
  let urls := (rows.filter (fun r => r.visited == false)).map URLRecord.url
  if limit < 0 then urls else urls.take limit.toNat

/-- The function `getNextURLs`: the rows of the query, appended to `urls` one
by one. -/
def getNextURLs (batchSize : Int) (db : Frontier) : List String :=
  (selectUnvisited batchSize db.rows).foldl (fun urls url => urls ++ [url]) []

/-- One statement of `markURLsAsVisited`:
`UPDATE urls SET visited = TRUE WHERE url = ?`. -/
def updateVisited (url : String) (db : Frontier) : Frontier :=
  ⟨db.rows.map (fun r => if r.url = url then ⟨r.url, true, r.scraped⟩ else r), by
    have h : (db.rows.map (fun r => if r.url = url then (⟨r.url, true, r.scraped⟩ : URLRecord)
        else r)).map URLRecord.url = db.rows.map URLRecord.url := by
      rw [List.map_map]
      apply List.map_congr_left
      intro r _
      by_cases hr : r.url = url <;> simp [hr]
    rw [h]
    exact db.key⟩

/-- The URLs of a loop over `urls` whose statement was executed: `faults`
tells, statement by statement, whether `Exec` returned an error (`true`); past
the end of `faults` no statement fails. -/
def executed : List String → List Bool → List String
  | [], _ => []
  | u :: urls, [] => u :: urls
  | _ :: urls, true :: faults => executed urls faults
  | u :: urls, false :: faults => u :: executed urls faults

/-- The UPDATE executed for each URL of a list. -/
def markEach (urls : List String) (db : Frontier) : Frontier :=
  urls.foldl (fun acc url => updateVisited url acc) db

/-- The function `markURLsAsVisited`: the UPDATE once per URL of the batch, in
one transaction; a statement that fails is logged and the loop goes on. -/
def markURLsAsVisited : List String → List Bool → Frontier → Frontier
  | [], _, db => db
  | url :: urls, [], db => markURLsAsVisited urls [] (updateVisited url db)
  | _ :: urls, true :: faults, db => markURLsAsVisited urls faults db
  | url :: urls, false :: faults, db => markURLsAsVisited urls faults (updateVisited url db)

/-- One execution of the prepared statement of `insertNewURLs`:
`INSERT OR IGNORE INTO urls (url, visited, scraped) VALUES (?, FALSE, FALSE)`.
A URL that has a row violates the primary key and the insert is ignored. -/
def insertOrIgnore (u : String) (db : Frontier) : Frontier :=
  if h : u ∈ db.rows.map URLRecord.url then db
  else ⟨db.rows ++ [freshRow u], by
    rw [List.map_append, List.nodup_append]
    refine ⟨db.key, by simp, ?_⟩
    intro a ha hb
    simp only [List.map_cons, List.map_nil, List.mem_singleton] at hb
    subst hb
    exact h ha⟩

/-- The INSERT executed for each URL of a list. -/
def insertEach (urls : List String) (db : Frontier) : Frontier :=
  urls.foldl (fun acc u => insertOrIgnore u acc) db

/-- The function `insertNewURLs`: the prepared INSERT once per URL, in one
transaction; a statement that fails is logged and the loop goes on. -/
def insertNewURLs : List String → List Bool → Frontier → Frontier
  | [], _, db => db
  | u :: urls, [], db => insertNewURLs urls [] (insertOrIgnore u db)
  | _ :: urls, true :: faults, db => insertNewURLs urls faults db
  | u :: urls, false :: faults, db => insertNewURLs urls faults (insertOrIgnore u db)

/-- The number of rows the frontier holds for a URL. -/
def rowCount (u : String) (db : Frontier) : Nat :=
  (db.rows.filter (fun r => r.url = u)).length

/-- The visited flag of a URL: `some b` when the URL has a row with flag `b`. -/
def visitedFlag (u : String) (db : Frontier) : Option Bool :=
  (db.rows.find? (fun r => r.url = u)).map URLRecord.visited

/-- The unvisited URLs of the frontier, as a count. -/
def unvisitedCount (db : Frontier) : Nat :=
  (db.rows.filter (fun r => r.visited == false)).length

/-! ## The article store -/

/-- Modelled from the spec: the `articles` table, whose CREATE TABLE statement
is not in the source.  The spec gives it no uniqueness constraint ("the store
does not currently enforce this as a hard constraint"), so the statement of
`insertArticle`,
`INSERT INTO articles (url, title, date_published, content) VALUES (?, ?, ?, ?)`,
appends a row; when the statement fails the error is logged and the article
is dropped. -/
def insertArticle (article : Article) (fails : Bool) (articles : List Article) :
    List Article :=
  if fails then articles else articles ++ [article]

/-! ## Documents and selections (the goquery calls the source makes) -/

/-- A node of a parsed HTML document: a text node or an element with its
attributes (key, value) and children. -/
inductive Node where
  | text (data : String)
  | element (tag : String) (attr : List (String × String)) (children : List Node)

/-- The children of a node. -/
def Node.children : Node → List Node
  | Node.text _ => []
  | Node.element _ _ cs => cs

/-- Whether a node is an element node. -/
def Node.isElement : Node → Bool
  | Node.text _ => false
  | Node.element _ _ _ => true

/-- A node together with its position in the document (the child indices from
the root), which stands for the node's pointer identity. -/
structure Located where
  path : List Nat
  node : Node

/-- A goquery `Selection`: the matched nodes, in order. -/
abbrev Selection := List Located

/-- The selection of a `goquery.Document`: its root node alone. -/
def documentSelection (doc : Node) : Selection := [⟨[], doc⟩]

mutual
/-- The selector call `MatchAll`: the node itself when it matches, then the
matches among its descendants, in document order. -/
def matchAll (m : Node → Bool) (path : List Nat) : Node → List Located
  | Node.text d => if m (Node.text d) then [⟨path, Node.text d⟩] else []
  | Node.element t a cs =>
    (if m (Node.element t a cs) then [⟨path, Node.element t a cs⟩] else [])
      ++ matchAllFrom m path 0 cs
/-- The loop of `MatchAll` over the children of a node, from child `i` on. -/
def matchAllFrom (m : Node → Bool) (path : List Nat) (i : Nat) : List Node → List Located
  | [] => []
  | c :: cs => matchAll m (path ++ [i]) c ++ matchAllFrom m path (i + 1) cs
end

/-- The loop of goquery's `findWithMatcher` over the children of one node of
the selection: every element child is searched with `MatchAll`. -/
def findInChildren (m : Node → Bool) (path : List Nat) (i : Nat) : List Node → List Located
  | [] => []
  | c :: cs =>
    (if c.isElement then matchAll m (path ++ [i]) c else [])
      ++ findInChildren m path (i + 1) cs

/-- The helper `appendWithoutDuplicates` of goquery: a node already in the
result is not added again. -/
def appendWithoutDuplicates (target vals : List Located) : List Located :=
  vals.foldl (fun acc v => if acc.any (fun x => x.path = v.path) then acc else acc ++ [v]) target

/-- The call `Selection.Find` with a compiled selector `m`: the descendants of
each node of the selection that match, without duplicates. -/
def find (s : Selection) (m : Node → Bool) : Selection :=
  s.foldl (fun result n =>
    appendWithoutDuplicates result (findInChildren m n.path 0 n.node.children)) []

mutual
/-- The helper `getNodeText` of goquery: the data of a text node, the
concatenated text of the children otherwise. -/
def getNodeText : Node → String
  | Node.text d => d
  | Node.element _ _ cs => getNodesText cs
/-- The loop of `getNodeText` over the children. -/
def getNodesText : List Node → String
  | [] => ""
  | c :: cs => getNodeText c ++ getNodesText cs
end

/-- The call `Selection.Text`: the combined text of every node of the
selection. -/
def text (s : Selection) : String :=
  s.foldl (fun buf n => buf ++ getNodeText n.node) ""

/-- The helper `getAttributeValue` of goquery on one node: the value of the
first attribute with that key, when there is one. -/
def getAttributeValue (name : String) : Node → Option String
  | Node.text _ => none
  | Node.element _ a _ => (a.find? (fun kv => kv.1 = name)).map Prod.snd

/-- The call `Selection.Attr` in an `Each` callback (a selection of one node). -/
def attr (s : Located) (name : String) : Option String :=
  getAttributeValue name s.node

/-- The selectors `p`, `h1` and `a`: an element with that tag. -/
def tagSelector (tag : String) : Node → Bool
  | Node.text _ => false
  | Node.element t _ _ => t = tag

/-- The blanks that separate the words of a `class` attribute. -/
def isClassSeparator (c : Char) : Bool :=
  c = ' ' || c = '\t' || c = '\r' || c = '\n' || c = '\x0c'

/-- A class selector such as `.fullstory`: some `class` attribute of the
element has the word among its blank-separated words. -/
def classSelector (cls : String) : Node → Bool
  | Node.text _ => false
  | Node.element _ a _ =>
    a.any (fun kv => kv.1 = "class" && (kv.2.data.splitOnP isClassSeparator).contains cls.data)

/-- The selector `div.pub-t`. -/
def datePublishedSelector (n : Node) : Bool :=
  tagSelector "div" n && classSelector "pub-t" n

/-- The selector `div.fullstory, section.fullstory`. -/
def fullstorySelector (n : Node) : Bool :=
  (tagSelector "div" n && classSelector "fullstory" n)
    || (tagSelector "section" n && classSelector "fullstory" n)

/-- The call `strings.HasPrefix`. -/
def hasPrefix (s pre : String) : Bool := pre.data.isPrefixOf s.data

/-! ## Extraction -/

/-- The function `extractText`. -/
def extractText (s : Selection) : String :=
  (find s (tagSelector "p")).foldl (fun acc p => acc ++ (text [p] ++ "\n\n")) ""

/-- The function `extractHeading`. -/
def extractHeading (s : Selection) : String :=
  text (find s (tagSelector "h1"))

/-- The function `extractDatePublished`. -/
def extractDatePublished (s : Selection) : String :=
  text (find s datePublishedSelector)

/-- The function `extractURLs`. -/
def extractURLs (doc : Node) : List String :=
  (find (documentSelection doc) (tagSelector "a")).foldl (fun urls s =>
    match attr s "href" with
    | some href => if hasPrefix href baseURL then urls ++ [href] else urls
    | none => urls) []

/-- The function `extractContent`; `fetch` stands for `http.Get` followed by
`goquery.NewDocumentFromReader`, an error of either being an error of the
fetch. -/
def extractContent (fetch : String → Except String Node) (u : String) :
    Except String (Article × Node) :=
  match fetch u with
  | Except.error err => Except.error err
  | Except.ok doc =>
    let fullstorySelection := find (documentSelection doc) fullstorySelector
    let title := extractHeading fullstorySelection
    let content := extractText fullstorySelection
    let datePublished := extractDatePublished fullstorySelection
    Except.ok (⟨u, title, datePublished, content⟩, doc)

/-! ## The crawl loop -/

/-- The statements of one iteration that fail: `update` for the UPDATE
statements of `markURLsAsVisited`, in order; `article u` for the INSERT of
`insertArticle` in the goroutine of the URL `u`; `insert u` for the INSERT
statements of `insertNewURLs` in that goroutine, in order. -/
structure Faults where
  update : List Bool
  article : String → Bool
  insert : String → List Bool

/-- A call the program makes, with the statements of it that failed; the log
of a run is a list of them. -/
inductive Call where
  | getNextURLs (batchSize : Int)
  | markURLsAsVisited (urls : List String) (faults : List Bool)
  | processURL (u : String)
  | insertArticle (article : Article) (fails : Bool)
  | insertNewURLs (urls : List String) (faults : List Bool)
deriving DecidableEq

/-- The state of a run: both stores and the log of calls made so far. -/
structure World where
  frontier : Frontier
  articles : List Article
  calls : List Call

/-- The effect of one call on the stores; the call is logged. -/
def perform (c : Call) (w : World) : World :=
  match c with
  | Call.getNextURLs _ => ⟨w.frontier, w.articles, w.calls ++ [c]⟩
  | Call.markURLsAsVisited urls faults =>
    ⟨markURLsAsVisited urls faults w.frontier, w.articles, w.calls ++ [c]⟩
  | Call.processURL _ => ⟨w.frontier, w.articles, w.calls ++ [c]⟩
  | Call.insertArticle article fails =>
    ⟨w.frontier, insertArticle article fails w.articles, w.calls ++ [c]⟩
  | Call.insertNewURLs urls faults =>
    ⟨insertNewURLs urls faults w.frontier, w.articles, w.calls ++ [c]⟩

/-- The function `processURL`, as the store calls its goroutine makes, in
order: none when `extractContent` returns an error, `insertArticle` and then
`insertNewURLs` otherwise. -/
def processURL (fetch : String → Except String Node) (faults : Faults) (u : String) :
    List Call :=
  match extractContent fetch u with
  | Except.error _ => []
  | Except.ok (article, doc) =>
    [Call.insertArticle article (faults.article u),
      Call.insertNewURLs (extractURLs doc) (faults.insert u)]

/-- One step of the scheduler: goroutine `i` makes its next store call (no
step when there is no such goroutine or it has finished). -/
def stepTask : Nat → List (List Call) → World → List (List Call) × World
  | _, [], w => ([], w)
  | 0, [] :: ts, w => ([] :: ts, w)
  | 0, (c :: t) :: ts, w => (t :: ts, perform c w)
  | i + 1, t :: ts, w => (t :: (stepTask i ts w).1, (stepTask i ts w).2)

/-- The scheduler follows a schedule, a list of goroutine indices. -/
def runSchedule : List Nat → List (List Call) → World → List (List Call) × World
  | [], ts, w => (ts, w)
  | i :: sched, ts, w => runSchedule sched (stepTask i ts w).1 (stepTask i ts w).2

/-- Calls made one after another. -/
def performAll (calls : List Call) (w : World) : World :=
  calls.foldl (fun acc c => perform c acc) w

/-- The call `wg.Wait()`: the goroutines of the batch interleave as the
schedule says, and whatever they have left to do when the schedule ends is
done goroutine by goroutine, so that all of them have returned. -/
def waitGroup (sched : List Nat) (tasks : List (List Call)) (w : World) : World :=
  performAll (runSchedule sched tasks w).1.flatten (runSchedule sched tasks w).2

/-- The body of the loop of `main` after the claim: one goroutine per URL of
the batch (`go processURL(u, &wg)`, logged in loop order), then `wg.Wait()`. -/
def dispatch (fetch : String → Except String Node) (sched : List Nat) (faults : Faults)
    (currentURLs : List String) (w : World) : World :=
  waitGroup sched (currentURLs.map (processURL fetch faults))
    (performAll (currentURLs.map Call.processURL) w)

/-- One iteration of the loop of `main`; the flag tells whether the loop was
left by `break`. -/
def iteration (fetch : String → Except String Node) (sched : List Nat) (faults : Faults)
    (w : World) : World × Bool :=
  let currentURLs := getNextURLs batchSize w.frontier
  let w1 := perform (Call.getNextURLs batchSize) w
  if currentURLs.length = 0 then (w1, true)
  else
    let w2 := perform (Call.markURLsAsVisited currentURLs faults.update) w1
    (dispatch fetch sched faults currentURLs w2, false)

/-- The function `main`, run for at most `fuel` iterations; iteration `k`
counted from the end runs under the schedule `sched k` and with the failing
statements `faults k`.  The flag tells whether `main` has returned. -/
def main (fetch : String → Except String Node) (sched : Nat → List Nat)
    (faults : Nat → Faults) : Nat → World → World × Bool
  | 0, w => (w, false)
  | fuel + 1, w =>
    if (iteration fetch (sched fuel) (faults fuel) w).2 then
      iteration fetch (sched fuel) (faults fuel) w
    else main fetch sched faults fuel (iteration fetch (sched fuel) (faults fuel) w).1

/-! ## Reading a log of calls -/

/-- The article a call has saved. -/
def Call.saved : Call → List Article
  | Call.insertArticle article fails => if fails then [] else [article]
  | _ => []

/-- The URLs whose INSERT a call has executed. -/
def Call.discovered : Call → List String
  | Call.insertNewURLs urls faults => executed urls faults
  | _ => []

/-- The URL a call dispatches a goroutine for. -/
def Call.dispatched : Call → List String
  | Call.processURL u => [u]
  | _ => []

/-- The calls a goroutine of `processURL` can make. -/
def Call.isStore : Call → Bool
  | Call.insertArticle _ _ => true
  | Call.insertNewURLs _ _ => true
  | _ => false

/-- The article `extractContent` returns for a URL, when its fetch succeeds. -/
def articleOf (fetch : String → Except String Node) (u : String) : Option Article :=
  match extractContent fetch u with
  | Except.error _ => none
  | Except.ok (article, _) => some article

/-- The links `processURL` proposes for a URL (none when its fetch fails). -/
def linksOf (fetch : String → Except String Node) (u : String) : List String :=
  match extractContent fetch u with
  | Except.error _ => []
  | Except.ok (_, doc) => extractURLs doc

/-- The article the goroutine of a URL saves: the one extracted, unless the
fetch or the INSERT of `insertArticle` fails. -/
def savedOf (fetch : String → Except String Node) (faults : Faults) (u : String) :
    Option Article :=
  if faults.article u then none else articleOf fetch u

/-- The links of a URL whose INSERT the goroutine of the URL executes. -/
def insertedOf (fetch : String → Except String Node) (faults : Faults) (u : String) :
    List String :=
  executed (linksOf fetch u) (faults.insert u)

/-- No statement fails. -/
def noFaults : Faults := ⟨[], fun _ => false, fun _ => []⟩

/-- The first UPDATE of `markURLsAsVisited` fails, nothing else does. -/
def firstUpdateFails : Faults := ⟨[true], fun _ => false, fun _ => []⟩

/-- The INSERT of every `insertArticle` fails and so do the first two INSERTs
of every `insertNewURLs`; no UPDATE does. -/
def insertsFail : Faults := ⟨[], fun _ => true, fun _ => [true, true]⟩

/-! ## Notions the extraction properties are stated with -/

mutual
/-- The nodes of a subtree in document order: a node, then the nodes of its
children from left to right. -/
def nodesInOrder : Node → List Node
  | Node.text d => [Node.text d]
  | Node.element t a cs => Node.element t a cs :: nodesInOrderOfList cs
/-- The nodes of a list of sibling subtrees in document order. -/
def nodesInOrderOfList : List Node → List Node
  | [] => []
  | c :: cs => nodesInOrder c ++ nodesInOrderOfList cs
end

/-- The anchor elements of a document, in document order. -/
def anchorElements (doc : Node) : List Node :=
  (nodesInOrderOfList doc.children).filter (tagSelector "a")

/-- The host of an absolute `https` URL: what stands between `https://` and
the first `/`, `?` or `#`, without the user information before an `@` and
without the port after a `:`. -/
def httpsHost (href : String) : Option String :=
  if "https://".data.isPrefixOf href.data then
    let authority := (href.data.drop 8).takeWhile (fun c => c != '/' && c != '?' && c != '#')
    let hostport := ((authority.splitOnP (fun c => c == '@')).getLast?).getD []
    some (String.mk (hostport.takeWhile (fun c => c != ':')))
  else none

/-- Splitting a list of characters on the double newline, leftmost match
first, one character at a time: `cur` is the piece read so far, and `nl` tells
that a single newline has just been read and is not yet part of `cur`. -/
def splitDoubleNewlineAux (cur : List Char) (nl : Bool) : List Char → List (List Char)
  | [] => [if nl then cur ++ ['\n'] else cur]
  | c :: rest =>
    if c = '\n' then
      if nl then cur :: splitDoubleNewlineAux [] false rest
      else splitDoubleNewlineAux cur true rest
    else splitDoubleNewlineAux ((if nl then cur ++ ['\n'] else cur) ++ [c]) false rest

/-- Splitting a string on the double newline (`strings.Split(s, "\n\n")`). -/
def splitDoubleNewline (s : String) : List String :=
  (splitDoubleNewlineAux [] false s.data).map String.mk

/-- What holds of a run at every generation boundary: no two articles share a
URL, every article's URL is claimed, no URL was dispatched twice, every
dispatched URL is claimed, the article store holds exactly the articles the
logged `insertArticle` calls saved, and every article's URL was dispatched. -/
def CrawlInvariant (w : World) : Prop :=
  (w.articles.map Article.URL).Nodup ∧
  (∀ a ∈ w.articles, visitedFlag a.URL w.frontier = some true) ∧
  (w.calls.flatMap Call.dispatched).Nodup ∧
  (∀ u ∈ w.calls.flatMap Call.dispatched, visitedFlag u w.frontier = some true) ∧
  w.calls.flatMap Call.saved = w.articles ∧
  (∀ a ∈ w.articles, a.URL ∈ w.calls.flatMap Call.dispatched)

/-! ## Example data -/

/-- A frontier with the single row `A`, unvisited. -/
def seedFrontier : Frontier := ⟨[⟨"A", false, false⟩], by decide⟩

/-- A frontier with the single row `B`, visited. -/
def idleFrontier : Frontier := ⟨[⟨"B", true, false⟩], by decide⟩

/-- A run that starts with both stores empty. -/
def emptyWorld : World := ⟨⟨[], List.nodup_nil⟩, [], []⟩

/-- An anchor element with the given `href`. -/
def anchor (href : String) : Node := Node.element "a" [("href", href)] []

/-- The page of `https://www.eenadu.net/a`: a story with a heading and one
paragraph, and links to the pages `b` and `c` of the site. -/
def pageA : Node :=
  Node.element "html" [] [Node.element "body" [] [
    Node.element "div" [("class", "fullstory")] [
      Node.element "h1" [] [Node.text "T"],
      Node.element "p" [] [Node.text "p1"]],
    anchor "https://www.eenadu.net/b",
    anchor "https://www.eenadu.net/c"]]

/-- A network on which only page `a` can be fetched. -/
def exampleFetch (u : String) : Except String Node :=
  if u = "https://www.eenadu.net/a" then Except.ok pageA else Except.error "no route"

/-- The scenario of the spec: `a` known and unvisited, `b` known and visited. -/
def exampleWorld : World :=
  ⟨⟨[⟨"https://www.eenadu.net/a", false, false⟩, ⟨"https://www.eenadu.net/b", true, false⟩],
    by decide⟩, [], []⟩

/-- A fresh crawl of the same site: only the seed `a` is known. -/
def seedWorld : World :=
  ⟨⟨[⟨"https://www.eenadu.net/a", false, false⟩], by decide⟩, [], []⟩

/-- The same site with a second unvisited URL, `d`, whose fetch fails. -/
def siblingWorld : World :=
  ⟨⟨[⟨"https://www.eenadu.net/d", false, false⟩, ⟨"https://www.eenadu.net/a", false, false⟩,
      ⟨"https://www.eenadu.net/b", true, false⟩], by decide⟩, [], []⟩

/-- A document with one anchor, to a host that only starts like the site's. -/
def foreignLinkPage : Node :=
  Node.element "html" [] [Node.element "body" [] [
    anchor "https://www.eenadu.net.evil.example/x"]]

/-- A paragraph element with the given text. -/
def paragraph (t : String) : Node := Node.element "p" [] [Node.text t]

/-- A story with two headings, `X` and `Y`, and two date lines. -/
def twoHeadings : Selection :=
  [⟨[0], Node.element "div" [("class", "fullstory")] [
    Node.element "h1" [] [Node.text "X"],
    Node.element "h1" [] [Node.text "Y"],
    Node.element "div" [("class", "pub-t")] [Node.text "D1"],
    Node.element "div" [("class", "pub-t")] [Node.text "D2"]]⟩]

/-- A story with the given paragraph texts. -/
def story (texts : List String) : Selection :=
  [⟨[0], Node.element "div" [("class", "fullstory")] (texts.map paragraph)⟩]

/-! # Theorems -/

/-! ## Frontier lemmas -/

theorem Frontier.ext_rows {a b : Frontier} (h : a.rows = b.rows) : a = b := by
  cases a; cases b; cases h; rfl

theorem foldl_snoc_eq (l acc : List String) :
    l.foldl (fun urls url => urls ++ [url]) acc = acc ++ l := by
  induction l generalizing acc with
  | nil => simp
  | cons x xs ih => simp [ih]

theorem getNextURLs_eq (n : Int) (db : Frontier) :
    getNextURLs n db = selectUnvisited n db.rows := by
  simp [getNextURLs, foldl_snoc_eq]

theorem mem_selectUnvisited {n : Int} {rows : List URLRecord} {x : String}
    (h : x ∈ selectUnvisited n rows) : ∃ r ∈ rows, r.visited = false ∧ r.url = x := by
  unfold selectUnvisited at h
  have h2 : x ∈ (rows.filter (fun r => r.visited == false)).map URLRecord.url := by
    by_cases hn : n < 0
    · simpa [hn] using h
    · simp only [hn, if_false] at h
      exact List.mem_of_mem_take h
  obtain ⟨r, hr, hx⟩ := List.mem_map.1 h2
  have hr2 := List.mem_filter.1 hr
  exact ⟨r, hr2.1, by simpa using hr2.2, hx⟩

theorem find_url_of_mem {rows : List URLRecord} (hk : (rows.map URLRecord.url).Nodup)
    {r : URLRecord} (hr : r ∈ rows) :
    rows.find? (fun x => x.url = r.url) = some r := by
  induction rows with
  | nil => cases hr
  | cons x xs ih =>
    rw [List.map_cons, List.nodup_cons] at hk
    rcases List.mem_cons.1 hr with h | h
    · subst h
      simp
    · have hne : ¬ x.url = r.url := by
        intro he
        exact hk.1 (he ▸ List.mem_map_of_mem URLRecord.url h)
      simp [List.find?_cons, hne, ih hk.2 h]

theorem visitedFlag_of_mem (db : Frontier) {r : URLRecord} (hr : r ∈ db.rows) :
    visitedFlag r.url db = some r.visited := by
  simp [visitedFlag, find_url_of_mem db.key hr]

theorem visitedFlag_eq_some_iff (db : Frontier) (u : String) (b : Bool) :
    visitedFlag u db = some b ↔ ∃ r ∈ db.rows, r.url = u ∧ r.visited = b := by
  constructor
  · intro h
    unfold visitedFlag at h
    cases hf : db.rows.find? (fun r => r.url = u) with
    | none => simp [hf] at h
    | some r =>
      simp [hf] at h
      have h1 := List.find?_some hf
      exact ⟨r, List.mem_of_find?_eq_some hf, by simpa using h1, h⟩
  · rintro ⟨r, hr, hu, hb⟩
    rw [← hu, ← hb]
    exact visitedFlag_of_mem db hr

theorem mem_urls_iff (db : Frontier) (u : String) :
    u ∈ db.urls ↔ ∃ r ∈ db.rows, r.url = u := by
  simp [Frontier.urls]

theorem visitedFlag_isSome_of_mem (db : Frontier) {u : String} (h : u ∈ db.urls) :
    ∃ b, visitedFlag u db = some b := by
  obtain ⟨r, hr, hu⟩ := (mem_urls_iff db u).1 h
  exact ⟨r.visited, hu ▸ visitedFlag_of_mem db hr⟩

theorem length_filter_url (rows : List URLRecord) (u : String) :
    (rows.filter (fun r => r.url = u)).length = (rows.map URLRecord.url).count u := by
  induction rows with
  | nil => simp
  | cons x xs ih =>
    by_cases h : x.url = u
    · simp [List.filter_cons, h, ih]
    · simp [List.filter_cons, h, ih, List.count_cons]

theorem rowCount_eq_one_iff (db : Frontier) (u : String) :
    rowCount u db = 1 ↔ u ∈ db.urls := by
  unfold rowCount Frontier.urls
  rw [length_filter_url]
  constructor
  · intro h
    exact List.count_pos_iff.1 (by omega)
  · intro h
    exact List.count_eq_one_of_mem db.key h

theorem insertOrIgnore_rows (u : String) (db : Frontier) :
    (insertOrIgnore u db).rows =
      if u ∈ db.urls then db.rows else db.rows ++ [freshRow u] := by
  unfold insertOrIgnore Frontier.urls
  split <;> rfl

theorem insertEach_cons (u : String) (us : List String) (db : Frontier) :
    insertEach (u :: us) db = insertEach us (insertOrIgnore u db) := rfl

theorem insertEach_append (us vs : List String) (db : Frontier) :
    insertEach (us ++ vs) db = insertEach vs (insertEach us db) := by
  simp [insertEach, List.foldl_append]

/-- What `insertEach` leaves in the table: the old rows, then one fresh row
for each proposed URL that had none. -/
theorem insertEach_rows (us : List String) (db : Frontier) :
    ∃ added : List String,
      (insertEach us db).rows = db.rows ++ added.map freshRow ∧ added.Nodup ∧
        ∀ x, x ∈ added ↔ x ∈ us ∧ x ∉ db.urls := by
  induction us generalizing db with
  | nil => exact ⟨[], by simp [insertEach], List.nodup_nil, by simp⟩
  | cons u us ih =>
    obtain ⟨added, hrows, hnd, hmem⟩ := ih (insertOrIgnore u db)
    rw [insertEach_cons]
    by_cases hu : u ∈ db.urls
    · have h1 : (insertOrIgnore u db).rows = db.rows := by simp [insertOrIgnore_rows, hu]
      have h2 : (insertOrIgnore u db).urls = db.urls := by simp [Frontier.urls, h1]
      refine ⟨added, by rw [hrows, h1], hnd, ?_⟩
      intro x
      rw [hmem x, h2]
      constructor
      · rintro ⟨a, b⟩
        exact ⟨List.mem_cons_of_mem _ a, b⟩
      · rintro ⟨a, b⟩
        rcases List.mem_cons.1 a with h | h
        · exact absurd (h ▸ hu) b
        · exact ⟨h, b⟩
    · have h1 : (insertOrIgnore u db).rows = db.rows ++ [freshRow u] := by
        simp [insertOrIgnore_rows, hu]
      have h2 : (insertOrIgnore u db).urls = db.urls ++ [u] := by
        simp [Frontier.urls, h1, freshRow]
      refine ⟨u :: added, by rw [hrows, h1]; simp, ?_, ?_⟩
      · refine List.nodup_cons.2 ⟨?_, hnd⟩
        intro hx
        exact ((hmem u).1 hx).2 (by simp [h2])
      · intro x
        rw [List.mem_cons, hmem x, h2]
        constructor
        · rintro (h | ⟨a, b⟩)
          · exact ⟨h ▸ List.mem_cons_self _ _, h ▸ hu⟩
          · exact ⟨List.mem_cons_of_mem _ a, fun hx => b (List.mem_append_left _ hx)⟩
        · rintro ⟨a, b⟩
          by_cases hxu : x = u
          · exact Or.inl hxu
          · refine Or.inr ⟨(List.mem_cons.1 a).resolve_left hxu, ?_⟩
            intro hx
            rcases List.mem_append.1 hx with h | h
            · exact b h
            · exact hxu (by simpa using h)

theorem mem_urls_insertEach (us : List String) (db : Frontier) (x : String) :
    x ∈ (insertEach us db).urls ↔ x ∈ db.urls ∨ x ∈ us := by
  obtain ⟨added, hrows, -, hmem⟩ := insertEach_rows us db
  have h : (insertEach us db).urls = db.urls ++ added := by
    simp [Frontier.urls, hrows, freshRow, Function.comp_def]
  rw [h, List.mem_append, hmem x]
  by_cases hx : x ∈ db.urls <;> simp [hx]

theorem updateVisited_rows (u : String) (db : Frontier) :
    (updateVisited u db).rows =
      db.rows.map (fun r => if r.url = u then ⟨r.url, true, r.scraped⟩ else r) := rfl

theorem markEach_cons (u : String) (us : List String) (db : Frontier) :
    markEach (u :: us) db = markEach us (updateVisited u db) := rfl

/-- What `markEach` leaves in the table: every row of a URL of the
batch has its flag set, every other row is as it was. -/
theorem markEach_rows (us : List String) (db : Frontier) :
    (markEach us db).rows =
      db.rows.map (fun r => if r.url ∈ us then ⟨r.url, true, r.scraped⟩ else r) := by
  induction us generalizing db with
  | nil => simp [markEach]
  | cons u us ih =>
    rw [markEach_cons, ih, updateVisited_rows, List.map_map]
    apply List.map_congr_left
    intro r _
    by_cases h1 : r.url = u
    · by_cases h2 : r.url ∈ us <;> simp [h1, h2]
    · by_cases h2 : r.url ∈ us <;> simp [h1, h2]

theorem markEach_urls (us : List String) (db : Frontier) :
    (markEach us db).urls = db.urls := by
  unfold Frontier.urls
  rw [markEach_rows, List.map_map]
  apply List.map_congr_left
  intro r _
  by_cases h : r.url ∈ us <;> simp [h]

theorem visitedFlag_eq_none_iff (db : Frontier) (u : String) :
    visitedFlag u db = none ↔ u ∉ db.urls := by
  constructor
  · intro h hu
    obtain ⟨b, hb⟩ := visitedFlag_isSome_of_mem db hu
    rw [h] at hb
    cases hb
  · intro h
    cases hv : visitedFlag u db with
    | none => rfl
    | some b =>
      obtain ⟨r, hr, hu, -⟩ := (visitedFlag_eq_some_iff db u b).1 hv
      exact absurd ((mem_urls_iff db u).2 ⟨r, hr, hu⟩) h

theorem visitedFlag_mark_of_mem {us : List String} {db : Frontier} {u : String}
    (hu : u ∈ us) (hk : u ∈ db.urls) : visitedFlag u (markEach us db) = some true := by
  obtain ⟨r, hr, hru⟩ := (mem_urls_iff db u).1 hk
  rw [visitedFlag_eq_some_iff, markEach_rows]
  refine ⟨⟨r.url, true, r.scraped⟩, ?_, hru, rfl⟩
  refine List.mem_map.2 ⟨r, hr, ?_⟩
  simp [hru, hu]

theorem visitedFlag_mark_of_not_mem {us : List String} {db : Frontier} {u : String}
    (hu : u ∉ us) : visitedFlag u (markEach us db) = visitedFlag u db := by
  by_cases hk : u ∈ db.urls
  · obtain ⟨r, hr, hru⟩ := (mem_urls_iff db u).1 hk
    have h1 : visitedFlag u db = some r.visited := hru ▸ visitedFlag_of_mem db hr
    rw [h1, visitedFlag_eq_some_iff, markEach_rows]
    refine ⟨r, List.mem_map.2 ⟨r, hr, ?_⟩, hru, rfl⟩
    simp [hru, hu]
  · have h1 : visitedFlag u db = none := (visitedFlag_eq_none_iff db u).2 hk
    rw [h1, visitedFlag_eq_none_iff, markEach_urls]
    exact hk

theorem visitedFlag_mark_claimed {us : List String} {db : Frontier} {u : String}
    (h : visitedFlag u db = some true) : visitedFlag u (markEach us db) = some true := by
  by_cases hu : u ∈ us
  · obtain ⟨r, hr, hru, -⟩ := (visitedFlag_eq_some_iff db u true).1 h
    exact visitedFlag_mark_of_mem hu ((mem_urls_iff db u).2 ⟨r, hr, hru⟩)
  · rw [visitedFlag_mark_of_not_mem hu, h]

theorem visitedFlag_insert_of_mem {us : List String} {db : Frontier} {u : String}
    (hk : u ∈ db.urls) : visitedFlag u (insertEach us db) = visitedFlag u db := by
  obtain ⟨r, hr, hru⟩ := (mem_urls_iff db u).1 hk
  obtain ⟨added, hrows, -, -⟩ := insertEach_rows us db
  have h1 : visitedFlag u db = some r.visited := hru ▸ visitedFlag_of_mem db hr
  rw [h1, visitedFlag_eq_some_iff, hrows]
  exact ⟨r, List.mem_append_left _ hr, hru, rfl⟩

theorem visitedFlag_insert_of_new {us : List String} {db : Frontier} {u : String}
    (hk : u ∉ db.urls) (hu : u ∈ us) :
    freshRow u ∈ (insertEach us db).rows ∧ visitedFlag u (insertEach us db) = some false := by
  obtain ⟨added, hrows, -, hmem⟩ := insertEach_rows us db
  have h1 : freshRow u ∈ (insertEach us db).rows := by
    rw [hrows]
    exact List.mem_append_right _ (List.mem_map_of_mem freshRow ((hmem u).2 ⟨hu, hk⟩))
  exact ⟨h1, (visitedFlag_eq_some_iff _ u false).2 ⟨freshRow u, h1, rfl, rfl⟩⟩

theorem not_mem_getNextURLs_of_claimed {db : Frontier} {u : String}
    (h : visitedFlag u db = some true) (n : Int) : u ∉ getNextURLs n db := by
  intro hu
  rw [getNextURLs_eq] at hu
  obtain ⟨r, hr, hv, hru⟩ := mem_selectUnvisited hu
  have h2 := visitedFlag_of_mem db hr
  rw [hru, h, hv] at h2
  cases h2

theorem executed_nil_faults (urls : List String) : executed urls [] = urls := by
  cases urls <;> rfl

theorem executed_sublist (urls : List String) (faults : List Bool) :
    (executed urls faults).Sublist urls := by
  induction urls generalizing faults with
  | nil => simp [executed]
  | cons u us ih =>
    cases faults with
    | nil => simp [executed]
    | cons b bs =>
      cases b with
      | true => exact (ih bs).cons u
      | false => exact (ih bs).cons₂ u

theorem executed_of_no_fault (urls : List String) {faults : List Bool}
    (h : ∀ b ∈ faults, b = false) : executed urls faults = urls := by
  induction urls generalizing faults with
  | nil => simp [executed]
  | cons u us ih =>
    cases faults with
    | nil => rfl
    | cons b bs =>
      have hb : b = false := h b (List.mem_cons_self _ _)
      subst hb
      simp [executed, ih (fun c hc => h c (List.mem_cons_of_mem _ hc))]

theorem executed_append (us vs : List String) (faults : List Bool) :
    executed (us ++ vs) faults = executed us faults ++ executed vs (faults.drop us.length) := by
  induction us generalizing faults with
  | nil => simp [executed]
  | cons u us ih =>
    cases faults with
    | nil => simp [executed, executed_nil_faults]
    | cons b bs =>
      cases b with
      | true => simp [executed, ih]
      | false => simp [executed, ih]

/-- The table `markURLsAsVisited` leaves is the one its executed UPDATE
statements leave. -/
theorem markURLsAsVisited_eq (urls : List String) (faults : List Bool) (db : Frontier) :
    markURLsAsVisited urls faults db = markEach (executed urls faults) db := by
  induction urls generalizing faults db with
  | nil => cases faults <;> rfl
  | cons u us ih =>
    cases faults with
    | nil =>
      simp only [markURLsAsVisited, executed]
      rw [ih, executed_nil_faults]
      rfl
    | cons b bs =>
      cases b with
      | true => simp only [markURLsAsVisited, executed]; exact ih bs db
      | false =>
        simp only [markURLsAsVisited, executed]
        rw [ih]
        rfl

/-- The table `insertNewURLs` leaves is the one its executed INSERT statements
leave. -/
theorem insertNewURLs_eq (urls : List String) (faults : List Bool) (db : Frontier) :
    insertNewURLs urls faults db = insertEach (executed urls faults) db := by
  induction urls generalizing faults db with
  | nil => cases faults <;> rfl
  | cons u us ih =>
    cases faults with
    | nil =>
      simp only [insertNewURLs, executed]
      rw [ih, executed_nil_faults]
      rfl
    | cons b bs =>
      cases b with
      | true => simp only [insertNewURLs, executed]; exact ih bs db
      | false =>
        simp only [insertNewURLs, executed]
        rw [ih]
        rfl

theorem perform_claimed (c : Call) {w : World} {u : String}
    (h : visitedFlag u w.frontier = some true) :
    visitedFlag u (perform c w).frontier = some true := by
  cases c with
  | getNextURLs n => exact h
  | markURLsAsVisited urls faults =>
    show visitedFlag u (markURLsAsVisited urls faults w.frontier) = some true
    rw [markURLsAsVisited_eq]
    exact visitedFlag_mark_claimed h
  | processURL v => exact h
  | insertArticle a fails => exact h
  | insertNewURLs urls faults =>
    obtain ⟨r, hr, hru, -⟩ := (visitedFlag_eq_some_iff _ u true).1 h
    show visitedFlag u (insertNewURLs urls faults w.frontier) = some true
    rw [insertNewURLs_eq, visitedFlag_insert_of_mem ((mem_urls_iff _ u).2 ⟨r, hr, hru⟩), h]

theorem performAll_nil (w : World) : performAll [] w = w := rfl

theorem performAll_cons (c : Call) (cs : List Call) (w : World) :
    performAll (c :: cs) w = performAll cs (perform c w) := rfl

theorem performAll_append (cs ds : List Call) (w : World) :
    performAll (cs ++ ds) w = performAll ds (performAll cs w) := by
  simp [performAll, List.foldl_append]

theorem performAll_claimed (calls : List Call) {w : World} {u : String}
    (h : visitedFlag u w.frontier = some true) :
    visitedFlag u (performAll calls w).frontier = some true := by
  induction calls generalizing w with
  | nil => exact h
  | cons c cs ih => exact ih (perform_claimed c h)

/-! ## C1: idempotent discovery -/

theorem rowCount_le_one (db : Frontier) (u : String) : rowCount u db ≤ 1 := by
  unfold rowCount
  rw [length_filter_url]
  exact List.nodup_iff_count_le_one.1 db.key u

/-- C1, as stated, fails when an INSERT fails: the error is logged, the loop
goes on, and the URL of the list has no row afterwards. -/
theorem failed_insert_leaves_no_row :
    rowCount "A" (insertNewURLs ["A"] [true] emptyWorld.frontier) = 0 ∧
    rowCount "A" (insertNewURLs ["A"] [false] emptyWorld.frontier) = 1 := by
  decide

/-- C1, amended. For every frontier (a table with at most one row per URL),
every two lists of URLs, repeats allowed, and every choice of INSERT
statements that fail: proposing the lists in two successive `insertNewURLs`
calls leaves the same table as proposing them in one call; afterwards no URL
has more than one row and every URL whose INSERT was executed has exactly one;
the old rows are still there, in place and unchanged, each known URL keeping
its one row and its visited flag; an unknown URL whose INSERT was executed has
the single fresh row, with visited = false; a URL has a row only if it was
known or its INSERT was executed; and when no statement fails every URL of the
lists has exactly one row. -/
theorem insertNewURLs_idempotent_discovery (db : Frontier) (us vs : List String)
    (faults : List Bool) :
    insertNewURLs vs (faults.drop us.length) (insertNewURLs us faults db)
      = insertNewURLs (us ++ vs) faults db ∧
    (∀ u, rowCount u (insertNewURLs (us ++ vs) faults db) ≤ 1) ∧
    (∀ u ∈ executed (us ++ vs) faults,
      rowCount u (insertNewURLs (us ++ vs) faults db) = 1) ∧
    (∃ added, (insertNewURLs (us ++ vs) faults db).rows = db.rows ++ added) ∧
    (∀ r ∈ db.rows, r ∈ (insertNewURLs (us ++ vs) faults db).rows ∧
      rowCount r.url (insertNewURLs (us ++ vs) faults db) = 1 ∧
      visitedFlag r.url (insertNewURLs (us ++ vs) faults db) = some r.visited) ∧
    (∀ u ∈ executed (us ++ vs) faults, u ∉ db.urls →
      freshRow u ∈ (insertNewURLs (us ++ vs) faults db).rows ∧
      visitedFlag u (insertNewURLs (us ++ vs) faults db) = some false) ∧
    (∀ u, u ∈ (insertNewURLs (us ++ vs) faults db).urls ↔
      u ∈ db.urls ∨ u ∈ executed (us ++ vs) faults) ∧
    ((∀ b ∈ faults, b = false) →
      ∀ u ∈ us ++ vs, rowCount u (insertNewURLs (us ++ vs) faults db) = 1) := by
  have hsplit : insertNewURLs vs (faults.drop us.length) (insertNewURLs us faults db)
      = insertNewURLs (us ++ vs) faults db := by
    rw [insertNewURLs_eq, insertNewURLs_eq, insertNewURLs_eq, executed_append,
      insertEach_append]
  refine ⟨hsplit, ?_⟩
  rw [insertNewURLs_eq (us ++ vs) faults db]
  obtain ⟨added, hrows, -, -⟩ := insertEach_rows (executed (us ++ vs) faults) db
  have hone : ∀ u ∈ executed (us ++ vs) faults,
      rowCount u (insertEach (executed (us ++ vs) faults) db) = 1 := by
    intro u hu
    exact (rowCount_eq_one_iff _ u).2 ((mem_urls_insertEach _ db u).2 (Or.inr hu))
  refine ⟨fun u => rowCount_le_one _ u, hone,
    ⟨_, hrows⟩, ?_, ?_, fun u => mem_urls_insertEach _ db u, ?_⟩
  · intro r hr
    have hk : r.url ∈ db.urls := (mem_urls_iff db r.url).2 ⟨r, hr, rfl⟩
    refine ⟨by rw [hrows]; exact List.mem_append_left _ hr, ?_, ?_⟩
    · exact (rowCount_eq_one_iff _ _).2 ((mem_urls_insertEach _ db _).2 (Or.inl hk))
    · rw [visitedFlag_insert_of_mem hk]
      exact visitedFlag_of_mem db hr
  · intro u hu hk
    exact visitedFlag_insert_of_new hk hu
  · intro hno u hu
    rw [executed_of_no_fault _ hno] at hone
    rw [executed_of_no_fault _ hno]
    exact hone u hu

/-! ## C2: at-most-once claiming -/

/-- C2, as stated, fails when an UPDATE fails: `main` passes the batch
`getNextURLs` returned, the UPDATE for `A` returns an error, which is logged,
and `getNextURLs` returns `A` again. -/
theorem failed_update_is_offered_again :
    getNextURLs batchSize seedFrontier = ["A"] ∧
    "A" ∈ getNextURLs batchSize
      (perform (Call.markURLsAsVisited (getNextURLs batchSize seedFrontier) [true])
        (World.mk seedFrontier [] [])).frontier := by
  decide

/-- C2, amended. For every state, every batch of URLs, every choice of UPDATE
statements that fail and every sequence of later calls (with whichever of
their statements failing, `insertNewURLs` rediscovering the URL included):
each URL of the batch that has a row and whose UPDATE was executed has its
visited flag set after `markURLsAsVisited` and after the later calls, and
`getNextURLs` does not return it, whatever the limit; a flag that is set stays
set under every sequence of calls; `markURLsAsVisited` leaves the set of known
URLs as it was; and a URL whose UPDATE was not executed keeps the flag it
had. -/
theorem claimed_never_returned (w : World) (batch : List String) (faults : List Bool)
    (calls : List Call) (n : Int) :
    (∀ u ∈ executed batch faults, u ∈ w.frontier.urls →
      visitedFlag u (perform (Call.markURLsAsVisited batch faults) w).frontier = some true ∧
      visitedFlag u
        (performAll calls (perform (Call.markURLsAsVisited batch faults) w)).frontier
          = some true ∧
      u ∉ getNextURLs n
        (performAll calls (perform (Call.markURLsAsVisited batch faults) w)).frontier) ∧
    (∀ u, visitedFlag u w.frontier = some true →
      visitedFlag u (performAll calls w).frontier = some true ∧
      u ∉ getNextURLs n (performAll calls w).frontier) ∧
    (perform (Call.markURLsAsVisited batch faults) w).frontier.urls = w.frontier.urls ∧
    (∀ u, u ∉ executed batch faults →
      visitedFlag u (perform (Call.markURLsAsVisited batch faults) w).frontier
        = visitedFlag u w.frontier) := by
  have hperf : (perform (Call.markURLsAsVisited batch faults) w).frontier
      = markEach (executed batch faults) w.frontier := markURLsAsVisited_eq _ _ _
  refine ⟨?_, ?_, ?_, ?_⟩
  · intro u hu hk
    have h1 : visitedFlag u (perform (Call.markURLsAsVisited batch faults) w).frontier
        = some true := by
      rw [hperf]
      exact visitedFlag_mark_of_mem hu hk
    have h2 := performAll_claimed calls h1
    exact ⟨h1, h2, not_mem_getNextURLs_of_claimed h2 n⟩
  · intro u hu
    have h2 := performAll_claimed calls hu
    exact ⟨h2, not_mem_getNextURLs_of_claimed h2 n⟩
  · rw [hperf, markEach_urls]
  · intro u hu
    rw [hperf]
    exact visitedFlag_mark_of_not_mem hu

theorem claimed_never_returned_witness :
    "A" ∈ executed ["A"] [false] ∧ "A" ∈ (World.mk seedFrontier [] []).frontier.urls ∧
    (visitedFlag "A"
        (perform (Call.markURLsAsVisited ["A"] [false]) (World.mk seedFrontier [] [])).frontier
          = some true ∧
      visitedFlag "A"
        (performAll [Call.insertNewURLs ["A", "B"] [], Call.markURLsAsVisited ["B"] [true]]
          (perform (Call.markURLsAsVisited ["A"] [false])
            (World.mk seedFrontier [] []))).frontier
          = some true ∧
      "A" ∉ getNextURLs batchSize
        (performAll [Call.insertNewURLs ["A", "B"] [], Call.markURLsAsVisited ["B"] [true]]
          (perform (Call.markURLsAsVisited ["A"] [false])
            (World.mk seedFrontier [] []))).frontier) :=
  ⟨by decide, by decide,
    (claimed_never_returned (World.mk seedFrontier [] []) ["A"] [false]
      [Call.insertNewURLs ["A", "B"] [], Call.markURLsAsVisited ["B"] [true]] batchSize).1
      "A" (by decide) (by decide)⟩

/-! ## C4: idle exit -/

theorem getNextURLs_eq_nil_of_idle {db : Frontier} (h : unvisitedCount db = 0) (n : Int) :
    getNextURLs n db = [] := by
  have h1 : db.rows.filter (fun r => r.visited == false) = [] :=
    List.length_eq_zero.1 h
  rw [getNextURLs_eq]
  unfold selectUnvisited
  dsimp only
  rw [h1]
  simp

/-- C4. For every state whose frontier has no unvisited URL, whatever
statements would fail, `getNextURLs` returns the empty list (whatever the
limit), and `main` returns in its first iteration: the stores are as they were
and the only call made is that one `getNextURLs(batchSize)`, so there is no
`markURLsAsVisited`, no goroutine, no `insertNewURLs` and no
`insertArticle`. -/
theorem idle_exit (fetch : String → Except String Node) (sched : Nat → List Nat)
    (faults : Nat → Faults) (fuel : Nat) (w : World) (h : unvisitedCount w.frontier = 0) :
    (∀ n, getNextURLs n w.frontier = []) ∧
    main fetch sched faults (fuel + 1) w =
      (⟨w.frontier, w.articles, w.calls ++ [Call.getNextURLs batchSize]⟩, true) := by
  have h0 := getNextURLs_eq_nil_of_idle h
  refine ⟨h0, ?_⟩
  have h1 : iteration fetch (sched fuel) (faults fuel) w =
      (⟨w.frontier, w.articles, w.calls ++ [Call.getNextURLs batchSize]⟩, true) := by
    simp [iteration, h0 batchSize, perform]
  simp [main, h1]

theorem idle_exit_witness :
    unvisitedCount (World.mk idleFrontier [] []).frontier = 0 ∧
    (∀ n, getNextURLs n (World.mk idleFrontier [] []).frontier = []) ∧
    main (fun _ => Except.error "unreachable") (fun _ => []) (fun _ => insertsFail) (0 + 1)
        (World.mk idleFrontier [] []) =
      (⟨idleFrontier, [], [] ++ [Call.getNextURLs batchSize]⟩, true) :=
  ⟨by decide, idle_exit (fun _ => Except.error "unreachable") (fun _ => [])
    (fun _ => insertsFail) 0 (World.mk idleFrontier [] []) (by decide)⟩

/-! ## The goroutines of one batch -/

theorem stepTask_spec (i : Nat) (ts : List (List Call)) (w : World) :
    stepTask i ts w = (ts, w) ∨
      ∃ c, (stepTask i ts w).2 = perform c w ∧
        (c :: (stepTask i ts w).1.flatten).Perm ts.flatten := by
  induction ts generalizing i with
  | nil => left; cases i <;> rfl
  | cons t ts ih =>
    cases i with
    | zero =>
      cases t with
      | nil => left; rfl
      | cons c t => right; exact ⟨c, rfl, by simp [stepTask]⟩
    | succ i =>
      rcases ih i with h | ⟨c, hc, hp⟩
      · left
        simp [stepTask, h]
      · right
        refine ⟨c, hc, ?_⟩
        simp only [stepTask, List.flatten_cons]
        exact List.perm_middle.symm.trans (List.Perm.append_left t hp)

theorem runSchedule_spec (sched : List Nat) (ts : List (List Call)) (w : World) :
    ∃ trace, (runSchedule sched ts w).2 = performAll trace w ∧
      (trace ++ (runSchedule sched ts w).1.flatten).Perm ts.flatten := by
  induction sched generalizing ts w with
  | nil => exact ⟨[], rfl, by simp [runSchedule]⟩
  | cons i sched ih =>
    obtain ⟨trace, h1, h2⟩ := ih (stepTask i ts w).1 (stepTask i ts w).2
    rcases stepTask_spec i ts w with h | ⟨c, hc, hp⟩
    · refine ⟨trace, ?_, ?_⟩
      · simp only [runSchedule]
        rw [h1, h]
      · simp only [runSchedule]
        rw [h] at h2 ⊢
        exact h2
    · refine ⟨c :: trace, ?_, ?_⟩
      · simp only [runSchedule]
        rw [h1, hc, performAll_cons]
      · simp only [runSchedule, List.cons_append]
        exact (List.Perm.cons c h2).trans hp

/-- Whatever the schedule, `wg.Wait()` returns after the goroutines have made
all their store calls, in some order. -/
theorem waitGroup_spec (sched : List Nat) (tasks : List (List Call)) (w : World) :
    ∃ trace, trace.Perm tasks.flatten ∧ waitGroup sched tasks w = performAll trace w := by
  obtain ⟨trace, h1, h2⟩ := runSchedule_spec sched tasks w
  refine ⟨trace ++ (runSchedule sched tasks w).1.flatten, h2, ?_⟩
  rw [performAll_append, ← h1]
  rfl

theorem performAll_store (trace : List Call) (w : World)
    (h : ∀ c ∈ trace, c.isStore = true) :
    performAll trace w =
      ⟨insertEach (trace.flatMap Call.discovered) w.frontier,
        w.articles ++ trace.flatMap Call.saved, w.calls ++ trace⟩ := by
  induction trace generalizing w with
  | nil => simp [performAll, insertEach]
  | cons c cs ih =>
    have hc := h c (List.mem_cons_self _ _)
    rw [performAll_cons, ih _ (fun d hd => h d (List.mem_cons_of_mem _ hd))]
    cases c with
    | getNextURLs n => cases hc
    | markURLsAsVisited urls faults => cases hc
    | processURL v => cases hc
    | insertArticle a fails =>
      cases fails <;> simp [perform, insertArticle, Call.discovered, Call.saved]
    | insertNewURLs urls faults =>
      simp [perform, Call.discovered, Call.saved, insertEach_append, insertNewURLs_eq]

theorem performAll_dispatches (us : List String) (w : World) :
    performAll (us.map Call.processURL) w =
      ⟨w.frontier, w.articles, w.calls ++ us.map Call.processURL⟩ := by
  induction us generalizing w with
  | nil => simp [performAll]
  | cons u us ih =>
    rw [List.map_cons, performAll_cons, ih]
    simp [perform]

theorem processURL_eq (fetch : String → Except String Node) (faults : Faults) (u : String) :
    processURL fetch faults u =
      match articleOf fetch u with
      | none => []
      | some article =>
        [Call.insertArticle article (faults.article u),
          Call.insertNewURLs (linksOf fetch u) (faults.insert u)] := by
  unfold processURL articleOf linksOf
  cases extractContent fetch u with
  | error e => rfl
  | ok p => rfl

theorem processURL_isStore (fetch : String → Except String Node) (faults : Faults)
    (u : String) : ∀ c ∈ processURL fetch faults u, c.isStore = true := by
  rw [processURL_eq]
  cases articleOf fetch u with
  | none => simp
  | some a => simp [Call.isStore]

theorem linksOf_eq_nil_of_fail {fetch : String → Except String Node} {u : String}
    (h : articleOf fetch u = none) : linksOf fetch u = [] := by
  unfold articleOf at h
  unfold linksOf
  cases he : extractContent fetch u with
  | error e => rfl
  | ok p => simp [he] at h

theorem insertedOf_eq_nil_of_fail {fetch : String → Except String Node} (faults : Faults)
    {u : String} (h : articleOf fetch u = none) : insertedOf fetch faults u = [] := by
  unfold insertedOf
  rw [linksOf_eq_nil_of_fail h]
  rfl

theorem tasks_saved (fetch : String → Except String Node) (faults : Faults)
    (batch : List String) :
    (batch.map (processURL fetch faults)).flatten.flatMap Call.saved
      = batch.filterMap (savedOf fetch faults) := by
  induction batch with
  | nil => rfl
  | cons u us ih =>
    rw [List.map_cons, List.flatten_cons, List.flatMap_append, ih, processURL_eq]
    cases h : articleOf fetch u with
    | none => cases hf : faults.article u <;> simp [List.filterMap_cons, savedOf, h, hf]
    | some a =>
      cases hf : faults.article u <;> simp [List.filterMap_cons, savedOf, h, hf, Call.saved]

theorem tasks_discovered (fetch : String → Except String Node) (faults : Faults)
    (batch : List String) :
    (batch.map (processURL fetch faults)).flatten.flatMap Call.discovered
      = batch.flatMap (insertedOf fetch faults) := by
  induction batch with
  | nil => rfl
  | cons u us ih =>
    rw [List.map_cons, List.flatten_cons, List.flatMap_append, ih, processURL_eq]
    cases h : articleOf fetch u with
    | none => simp [insertedOf_eq_nil_of_fail faults h]
    | some a => simp [Call.discovered, insertedOf]

theorem tasks_isStore (fetch : String → Except String Node) (faults : Faults)
    (batch : List String) :
    ∀ c ∈ (batch.map (processURL fetch faults)).flatten, c.isStore = true := by
  intro c hc
  obtain ⟨t, ht, hct⟩ := List.mem_flatten.1 hc
  obtain ⟨u, -, rfl⟩ := List.mem_map.1 ht
  exact processURL_isStore fetch faults u c hct

/-- The state `dispatch` leaves: the goroutines' store calls were made in some
order `trace`, a permutation of all the calls of all the goroutines. -/
theorem dispatch_spec (fetch : String → Except String Node) (sched : List Nat)
    (faults : Faults) (batch : List String) (w : World) :
    ∃ trace, trace.Perm (batch.map (processURL fetch faults)).flatten ∧
      dispatch fetch sched faults batch w =
        ⟨insertEach (trace.flatMap Call.discovered) w.frontier,
          w.articles ++ trace.flatMap Call.saved,
          w.calls ++ batch.map Call.processURL ++ trace⟩ := by
  obtain ⟨trace, hp, hw⟩ := waitGroup_spec sched (batch.map (processURL fetch faults))
    (performAll (batch.map Call.processURL) w)
  refine ⟨trace, hp, ?_⟩
  unfold dispatch
  rw [hw, performAll_store trace _
    (fun c hc => tasks_isStore fetch faults batch c (hp.subset hc)), performAll_dispatches]

theorem dispatch_saved_perm {fetch : String → Except String Node} {faults : Faults}
    {batch : List String} {trace : List Call}
    (hp : trace.Perm (batch.map (processURL fetch faults)).flatten) :
    (trace.flatMap Call.saved).Perm (batch.filterMap (savedOf fetch faults)) := by
  rw [← tasks_saved]
  exact List.Perm.flatMap_right _ hp

theorem dispatch_discovered_mem {fetch : String → Except String Node} {faults : Faults}
    {batch : List String} {trace : List Call}
    (hp : trace.Perm (batch.map (processURL fetch faults)).flatten) (x : String) :
    x ∈ trace.flatMap Call.discovered ↔ ∃ u ∈ batch, x ∈ insertedOf fetch faults u := by
  rw [(List.Perm.flatMap_right Call.discovered hp).mem_iff, tasks_discovered]
  simp [List.mem_flatMap]

theorem iteration_of_batch (fetch : String → Except String Node) (sched : List Nat)
    (faults : Faults) (w : World) (hbatch : getNextURLs batchSize w.frontier ≠ []) :
    iteration fetch sched faults w =
      (dispatch fetch sched faults (getNextURLs batchSize w.frontier)
        (perform (Call.markURLsAsVisited (getNextURLs batchSize w.frontier) faults.update)
          (perform (Call.getNextURLs batchSize) w)), false) := by
  unfold iteration
  simp [hbatch]

theorem iteration_of_idle (fetch : String → Except String Node) (sched : List Nat)
    (faults : Faults) (w : World) (hbatch : getNextURLs batchSize w.frontier = []) :
    iteration fetch sched faults w = (perform (Call.getNextURLs batchSize) w, true) := by
  unfold iteration
  simp [hbatch]

theorem mem_urls_of_mem_getNextURLs {n : Int} {db : Frontier} {u : String}
    (h : u ∈ getNextURLs n db) : u ∈ db.urls := by
  rw [getNextURLs_eq] at h
  obtain ⟨r, hr, -, hru⟩ := mem_selectUnvisited h
  exact (mem_urls_iff db u).2 ⟨r, hr, hru⟩

theorem unvisited_of_mem_getNextURLs {n : Int} {db : Frontier} {u : String}
    (h : u ∈ getNextURLs n db) : visitedFlag u db = some false := by
  rw [getNextURLs_eq] at h
  obtain ⟨r, hr, hv, hru⟩ := mem_selectUnvisited h
  exact (visitedFlag_eq_some_iff db u false).2 ⟨r, hr, hru, hv⟩

theorem getNextURLs_nodup (n : Int) (db : Frontier) : (getNextURLs n db).Nodup := by
  rw [getNextURLs_eq]
  have h1 : ((db.rows.filter (fun r => r.visited == false)).map URLRecord.url).Nodup :=
    List.Nodup.sublist (List.Sublist.map _ (List.filter_sublist _)) db.key
  unfold selectUnvisited
  dsimp only
  split
  · exact h1
  · exact List.Nodup.sublist (List.take_sublist _ _) h1

theorem articleOf_URL {fetch : String → Except String Node} {u : String} {a : Article}
    (h : articleOf fetch u = some a) : a.URL = u := by
  unfold articleOf extractContent at h
  cases hf : fetch u with
  | error e => simp [hf] at h
  | ok doc =>
    simp [hf] at h
    rw [← h]

theorem savedOf_eq_some {fetch : String → Except String Node} {faults : Faults}
    {u : String} {a : Article} (h : savedOf fetch faults u = some a) :
    articleOf fetch u = some a ∧ faults.article u = false := by
  unfold savedOf at h
  cases hf : faults.article u with
  | true => simp [hf] at h
  | false => simpa [hf] using h

theorem savedOf_URL {fetch : String → Except String Node} {faults : Faults}
    {u : String} {a : Article} (h : savedOf fetch faults u = some a) : a.URL = u :=
  articleOf_URL (savedOf_eq_some h).1

theorem map_URL_filterMap_savedOf (fetch : String → Except String Node) (faults : Faults)
    (batch : List String) :
    (batch.filterMap (savedOf fetch faults)).map Article.URL
      = batch.filter (fun u => (savedOf fetch faults u).isSome) := by
  induction batch with
  | nil => rfl
  | cons u us ih =>
    cases h : savedOf fetch faults u with
    | none => simp [List.filterMap_cons, List.filter_cons, h, ih]
    | some a => simp [List.filterMap_cons, List.filter_cons, h, ih, savedOf_URL h]

/-- The state one iteration on a non-empty batch leaves, whatever the
schedule: the UPDATE statements that did not fail have claimed their URLs,
then the goroutines' store calls are made in some order `trace`. -/
theorem iteration_spec (fetch : String → Except String Node) (sched : List Nat)
    (faults : Faults) (w : World) (hbatch : getNextURLs batchSize w.frontier ≠ []) :
    ∃ trace : List Call,
      trace.Perm ((getNextURLs batchSize w.frontier).map (processURL fetch faults)).flatten ∧
      iteration fetch sched faults w =
        (⟨insertEach (trace.flatMap Call.discovered)
            (markEach (executed (getNextURLs batchSize w.frontier) faults.update) w.frontier),
          w.articles ++ trace.flatMap Call.saved,
          w.calls ++ [Call.getNextURLs batchSize]
            ++ [Call.markURLsAsVisited (getNextURLs batchSize w.frontier) faults.update]
            ++ (getNextURLs batchSize w.frontier).map Call.processURL ++ trace⟩, false) := by
  obtain ⟨trace, hp, hd⟩ := dispatch_spec fetch sched faults (getNextURLs batchSize w.frontier)
    (perform (Call.markURLsAsVisited (getNextURLs batchSize w.frontier) faults.update)
      (perform (Call.getNextURLs batchSize) w))
  refine ⟨trace, hp, ?_⟩
  rw [iteration_of_batch fetch sched faults w hbatch, hd]
  simp only [perform, markURLsAsVisited_eq]

/-! ## C5: one generation, end to end -/

/-- C5, as stated, fails when a statement fails. In the scenario of the spec:
when the UPDATE for `a` fails, `a` is dispatched and is unvisited after its
generation; when the INSERTs fail, no article is saved for `a` although its
fetch succeeded, and its link `c` has no row. -/
theorem failed_statements_break_generation :
    getNextURLs batchSize exampleWorld.frontier = ["https://www.eenadu.net/a"] ∧
    visitedFlag "https://www.eenadu.net/a"
      (iteration exampleFetch [] firstUpdateFails exampleWorld).1.frontier = some false ∧
    (iteration exampleFetch [] firstUpdateFails exampleWorld).1.articles
      = [⟨"https://www.eenadu.net/a", "T", "", "p1\n\n"⟩] ∧
    (iteration exampleFetch [] insertsFail exampleWorld).1.articles = [] ∧
    rowCount "https://www.eenadu.net/c"
      (iteration exampleFetch [] insertsFail exampleWorld).1.frontier = 0 := by
  decide

/-- C5, amended. For every state, every assignment of fetch results, every
interleaving of the goroutines and every choice of statements that fail: when
the batch `getNextURLs(batchSize)` is not empty, the iteration does not leave
the loop and afterwards (1) every URL of the batch whose UPDATE was executed is
visited, and every other URL of the batch is still unvisited, (2) every URL
known before that is not in the batch has the visited flag it had, (3) every
link `extractURLs` returns for a batch URL whose fetch succeeded, and whose
INSERT was executed, has exactly one row, and is unvisited if it was unknown
before, and (4) the article store is the old one followed by one article for
each batch URL whose fetch succeeded and whose `insertArticle` did not fail
(in some order), the batch holding no URL twice. -/
theorem one_generation (fetch : String → Except String Node) (sched : List Nat)
    (faults : Faults) (w : World) (hbatch : getNextURLs batchSize w.frontier ≠ []) :
    (iteration fetch sched faults w).2 = false ∧
    (∀ u ∈ getNextURLs batchSize w.frontier,
      (u ∈ executed (getNextURLs batchSize w.frontier) faults.update →
        visitedFlag u (iteration fetch sched faults w).1.frontier = some true) ∧
      (u ∉ executed (getNextURLs batchSize w.frontier) faults.update →
        visitedFlag u (iteration fetch sched faults w).1.frontier = some false)) ∧
    (∀ u ∈ w.frontier.urls, u ∉ getNextURLs batchSize w.frontier →
      visitedFlag u (iteration fetch sched faults w).1.frontier = visitedFlag u w.frontier) ∧
    (∀ u ∈ getNextURLs batchSize w.frontier, ∀ article doc,
      extractContent fetch u = Except.ok (article, doc) →
      ∀ l ∈ executed (extractURLs doc) (faults.insert u),
        rowCount l (iteration fetch sched faults w).1.frontier = 1 ∧
        (l ∉ w.frontier.urls →
          visitedFlag l (iteration fetch sched faults w).1.frontier = some false)) ∧
    (∃ added, (iteration fetch sched faults w).1.articles = w.articles ++ added ∧
      added.Perm ((getNextURLs batchSize w.frontier).filterMap (savedOf fetch faults)) ∧
      (added.map Article.URL).Perm
        ((getNextURLs batchSize w.frontier).filter
          (fun u => (savedOf fetch faults u).isSome)) ∧
      (getNextURLs batchSize w.frontier).Nodup) := by
  obtain ⟨trace, hp, hit⟩ := iteration_spec fetch sched faults w hbatch
  rw [hit]
  have hurls := markEach_urls (executed (getNextURLs batchSize w.frontier) faults.update)
    w.frontier
  refine ⟨rfl, ?_, ?_, ?_, ?_⟩
  · intro u hu
    have hk : u ∈ w.frontier.urls := mem_urls_of_mem_getNextURLs hu
    constructor
    · intro hex
      show visitedFlag u (insertEach _ (markEach _ w.frontier)) = some true
      rw [visitedFlag_insert_of_mem (hurls.symm ▸ hk)]
      exact visitedFlag_mark_of_mem hex hk
    · intro hex
      show visitedFlag u (insertEach _ (markEach _ w.frontier)) = some false
      rw [visitedFlag_insert_of_mem (hurls.symm ▸ hk), visitedFlag_mark_of_not_mem hex]
      exact unvisited_of_mem_getNextURLs hu
  · intro u hk hu
    show visitedFlag u (insertEach _ (markEach _ w.frontier)) = _
    rw [visitedFlag_insert_of_mem (hurls.symm ▸ hk)]
    exact visitedFlag_mark_of_not_mem
      (fun h => hu ((executed_sublist _ _).subset h))
  · intro u hu article doc hok l hl
    have hlinks : l ∈ trace.flatMap Call.discovered := by
      rw [dispatch_discovered_mem hp]
      refine ⟨u, hu, ?_⟩
      simpa [insertedOf, linksOf, hok] using hl
    constructor
    · exact (rowCount_eq_one_iff _ l).2 ((mem_urls_insertEach _ _ l).2 (Or.inr hlinks))
    · intro hnew
      exact (visitedFlag_insert_of_new (hurls.symm ▸ hnew) hlinks).2
  · refine ⟨trace.flatMap Call.saved, rfl, dispatch_saved_perm hp, ?_, getNextURLs_nodup _ _⟩
    rw [← map_URL_filterMap_savedOf]
    exact (dispatch_saved_perm hp).map _

theorem one_generation_witness :
    getNextURLs batchSize exampleWorld.frontier ≠ [] ∧
    ((iteration exampleFetch [0, 0] noFaults exampleWorld).1.frontier.rows =
        [⟨"https://www.eenadu.net/a", true, false⟩, ⟨"https://www.eenadu.net/b", true, false⟩,
          ⟨"https://www.eenadu.net/c", false, false⟩] ∧
      (iteration exampleFetch [0, 0] noFaults exampleWorld).1.articles =
        [⟨"https://www.eenadu.net/a", "T", "", "p1\n\n"⟩]) ∧
    ((iteration exampleFetch [0, 0] noFaults exampleWorld).2 = false ∧
    (∀ u ∈ getNextURLs batchSize exampleWorld.frontier,
      (u ∈ executed (getNextURLs batchSize exampleWorld.frontier) noFaults.update →
        visitedFlag u (iteration exampleFetch [0, 0] noFaults exampleWorld).1.frontier
          = some true) ∧
      (u ∉ executed (getNextURLs batchSize exampleWorld.frontier) noFaults.update →
        visitedFlag u (iteration exampleFetch [0, 0] noFaults exampleWorld).1.frontier
          = some false)) ∧
    (∀ u ∈ exampleWorld.frontier.urls, u ∉ getNextURLs batchSize exampleWorld.frontier →
      visitedFlag u (iteration exampleFetch [0, 0] noFaults exampleWorld).1.frontier
        = visitedFlag u exampleWorld.frontier) ∧
    (∀ u ∈ getNextURLs batchSize exampleWorld.frontier, ∀ article doc,
      extractContent exampleFetch u = Except.ok (article, doc) →
      ∀ l ∈ executed (extractURLs doc) (noFaults.insert u),
        rowCount l (iteration exampleFetch [0, 0] noFaults exampleWorld).1.frontier = 1 ∧
        (l ∉ exampleWorld.frontier.urls →
          visitedFlag l (iteration exampleFetch [0, 0] noFaults exampleWorld).1.frontier
            = some false)) ∧
    (∃ added, (iteration exampleFetch [0, 0] noFaults exampleWorld).1.articles
        = exampleWorld.articles ++ added ∧
      added.Perm ((getNextURLs batchSize exampleWorld.frontier).filterMap
        (savedOf exampleFetch noFaults)) ∧
      (added.map Article.URL).Perm
        ((getNextURLs batchSize exampleWorld.frontier).filter
          (fun u => (savedOf exampleFetch noFaults u).isSome)) ∧
      (getNextURLs batchSize exampleWorld.frontier).Nodup)) :=
  ⟨by decide, by decide, one_generation exampleFetch [0, 0] noFaults exampleWorld (by decide)⟩

/-! ## C9: the unvisited count over one iteration -/

theorem length_filter_mem_of_sublist {l t : List String} (hl : l.Nodup) (ht : t.Sublist l) :
    (l.filter (fun x => x ∈ t)).length = t.length := by
  apply List.Perm.length_eq
  rw [List.perm_ext_iff_of_nodup (hl.filter _) (List.Nodup.sublist ht hl)]
  intro x
  simp only [List.mem_filter, decide_eq_true_eq]
  exact ⟨fun h => h.2, fun h => ⟨ht.subset h, h⟩⟩

theorem getNextURLs_sublist (n : Int) (db : Frontier) :
    (getNextURLs n db).Sublist
      ((db.rows.filter (fun r => r.visited == false)).map URLRecord.url) := by
  rw [getNextURLs_eq]
  unfold selectUnvisited
  dsimp only
  split
  · exact List.Sublist.refl _
  · exact List.take_sublist _ _

theorem getNextURLs_length (db : Frontier) :
    (getNextURLs batchSize db).length = min 100 (unvisitedCount db) := by
  rw [getNextURLs_eq]
  simp [selectUnvisited, batchSize, unvisitedCount]

/-- Claiming unvisited URLs lowers the unvisited count by their number. -/
theorem unvisitedCount_mark {claimed : List String} (db : Frontier)
    (hsub : claimed.Sublist ((db.rows.filter (fun r => r.visited == false)).map URLRecord.url)) :
    unvisitedCount (markEach claimed db) + claimed.length = unvisitedCount db := by
  have hnd : ((db.rows.filter (fun r => r.visited == false)).map URLRecord.url).Nodup :=
    List.Nodup.sublist (List.Sublist.map _ (List.filter_sublist _)) db.key
  have hlen := length_filter_mem_of_sublist hnd hsub
  rw [List.filter_map, List.length_map] at hlen
  have hsplit := List.length_eq_length_filter_add
    (l := db.rows.filter (fun r => r.visited == false))
    (fun r => decide (r.url ∈ claimed))
  have hmark : unvisitedCount (markEach claimed db) =
      ((db.rows.filter (fun r => r.visited == false)).filter
        (fun r => !decide (r.url ∈ claimed))).length := by
    unfold unvisitedCount
    rw [markEach_rows, List.filter_map, List.length_map, List.filter_filter]
    congr 1
    apply List.filter_congr
    intro r _
    by_cases h1 : r.url ∈ claimed <;> cases hv : r.visited <;> simp [h1, hv]
  have hlen2 : ((db.rows.filter (fun r => r.visited == false)).filter
      (fun r => decide (r.url ∈ claimed))).length = claimed.length := by
    rw [← hlen]
    rfl
  unfold unvisitedCount at hsplit ⊢
  unfold unvisitedCount at hmark
  omega

theorem markEach_length (us : List String) (db : Frontier) :
    (markEach us db).rows.length = db.rows.length := by
  rw [markEach_rows, List.length_map]

/-- Every row `insertEach` adds is one more unvisited URL. -/
theorem unvisitedCount_insertEach (us : List String) (db : Frontier) :
    db.rows.length ≤ (insertEach us db).rows.length ∧
    unvisitedCount (insertEach us db)
      = unvisitedCount db + ((insertEach us db).rows.length - db.rows.length) := by
  obtain ⟨added, hrows, -, -⟩ := insertEach_rows us db
  have hf : (added.map freshRow).filter (fun r => r.visited == false) = added.map freshRow := by
    apply List.filter_eq_self.2
    intro r hr
    obtain ⟨x, -, rfl⟩ := List.mem_map.1 hr
    rfl
  unfold unvisitedCount
  rw [hrows, List.filter_append, hf]
  simp

/-- C9, as stated, fails: on a fresh crawl whose seed page links to two pages
not yet known, the iteration claims one URL and discovers two, so the unvisited
count goes from 1 to 2; and when the UPDATE fails nothing is claimed at all,
so the count goes from 1 to 3. -/
theorem unvisited_count_can_grow :
    (iteration exampleFetch [] noFaults seedWorld).2 = false ∧
    unvisitedCount seedWorld.frontier = 1 ∧
    unvisitedCount (iteration exampleFetch [] noFaults seedWorld).1.frontier = 2 ∧
    unvisitedCount (iteration exampleFetch [] firstUpdateFails seedWorld).1.frontier = 3 := by
  decide

/-- C9, amended. For every state, every assignment of fetch results, every
interleaving and every choice of statements that fail: the loop is left
exactly when no unvisited URL remains; the batch holds `min(100, unvisited)`
URLs; no row is lost; and the unvisited count after the iteration is the count
before, minus the number of batch URLs whose UPDATE was executed, plus the
number of rows newly inserted, so it is strictly smaller exactly when fewer
rows were inserted than URLs claimed. -/
theorem unvisited_count_after_iteration (fetch : String → Except String Node)
    (sched : List Nat) (faults : Faults) (w : World) :
    ((iteration fetch sched faults w).2 = true ↔ unvisitedCount w.frontier = 0) ∧
    (getNextURLs batchSize w.frontier).length = min 100 (unvisitedCount w.frontier) ∧
    (executed (getNextURLs batchSize w.frontier) faults.update).length
      ≤ (getNextURLs batchSize w.frontier).length ∧
    ((∀ b ∈ faults.update, b = false) →
      executed (getNextURLs batchSize w.frontier) faults.update
        = getNextURLs batchSize w.frontier) ∧
    w.frontier.rows.length ≤ (iteration fetch sched faults w).1.frontier.rows.length ∧
    unvisitedCount (iteration fetch sched faults w).1.frontier
        + (executed (getNextURLs batchSize w.frontier) faults.update).length
      = unvisitedCount w.frontier
        + ((iteration fetch sched faults w).1.frontier.rows.length
            - w.frontier.rows.length) ∧
    (unvisitedCount (iteration fetch sched faults w).1.frontier < unvisitedCount w.frontier ↔
      (iteration fetch sched faults w).1.frontier.rows.length - w.frontier.rows.length
        < (executed (getNextURLs batchSize w.frontier) faults.update).length) := by
  have hlen := getNextURLs_length w.frontier
  have hexl := (executed_sublist (getNextURLs batchSize w.frontier) faults.update).length_le
  have hno : (∀ b ∈ faults.update, b = false) →
      executed (getNextURLs batchSize w.frontier) faults.update
        = getNextURLs batchSize w.frontier := fun h => executed_of_no_fault _ h
  by_cases hb : getNextURLs batchSize w.frontier = []
  · have h0 : unvisitedCount w.frontier = 0 := by
      rw [hb] at hlen
      simp at hlen
      omega
    rw [iteration_of_idle fetch sched faults w hb]
    simp [perform, hb, h0, executed]
  · obtain ⟨trace, -, hit⟩ := iteration_spec fetch sched faults w hb
    have hpos : 0 < (getNextURLs batchSize w.frontier).length := List.length_pos.2 hb
    have h1 := unvisitedCount_mark w.frontier
      ((executed_sublist (getNextURLs batchSize w.frontier) faults.update).trans
        (getNextURLs_sublist batchSize w.frontier))
    have h2 := unvisitedCount_insertEach (trace.flatMap Call.discovered)
      (markEach (executed (getNextURLs batchSize w.frontier) faults.update) w.frontier)
    have h3 := markEach_length (executed (getNextURLs batchSize w.frontier) faults.update)
      w.frontier
    rw [hit]
    dsimp only
    refine ⟨?_, hlen, hexl, hno, ?_, ?_, ?_⟩
    · constructor
      · intro h; cases h
      · intro h; omega
    · omega
    · omega
    · omega

/-! ## C10: at most one article per URL -/

theorem flatMap_dispatched_dispatches (us : List String) :
    (us.map Call.processURL).flatMap Call.dispatched = us := by
  induction us with
  | nil => rfl
  | cons u us ih => simp [Call.dispatched, ih]

theorem flatMap_saved_dispatches (us : List String) :
    (us.map Call.processURL).flatMap Call.saved = [] := by
  induction us with
  | nil => rfl
  | cons u us ih => simp [Call.saved, ih]

theorem flatMap_dispatched_store {trace : List Call} (h : ∀ c ∈ trace, c.isStore = true) :
    trace.flatMap Call.dispatched = [] := by
  rw [List.flatMap_eq_nil_iff]
  intro c hc
  have := h c hc
  cases c <;> simp_all [Call.isStore, Call.dispatched]

theorem visitedFlag_claimed_after {db : Frontier} {u : String} (batch links : List String)
    (h : visitedFlag u db = some true) :
    visitedFlag u (insertEach links (markEach batch db)) = some true := by
  have h1 : visitedFlag u (markEach batch db) = some true := visitedFlag_mark_claimed h
  obtain ⟨r, hr, hru, -⟩ := (visitedFlag_eq_some_iff _ u true).1 h1
  rw [visitedFlag_insert_of_mem ((mem_urls_iff _ u).2 ⟨r, hr, hru⟩), h1]

theorem visitedFlag_batch_after {db : Frontier} {u : String} {claimed : List String}
    (links : List String) (h : u ∈ claimed) (hk : u ∈ db.urls) :
    visitedFlag u (insertEach links (markEach claimed db)) = some true := by
  rw [visitedFlag_insert_of_mem ((markEach_urls _ db).symm ▸ hk)]
  exact visitedFlag_mark_of_mem h hk

theorem length_filter_URL (arts : List Article) (u : String) :
    (arts.filter (fun a => a.URL = u)).length = (arts.map Article.URL).count u := by
  induction arts with
  | nil => simp
  | cons x xs ih =>
    by_cases h : x.URL = u
    · simp [List.filter_cons, h, ih]
    · simp [List.filter_cons, h, ih, List.count_cons]

theorem crawlInvariant_iteration (fetch : String → Except String Node) (sched : List Nat)
    (faults : Faults) (hup : ∀ b ∈ faults.update, b = false)
    (w : World) (h : CrawlInvariant w) : CrawlInvariant (iteration fetch sched faults w).1 := by
  obtain ⟨hA, hAv, hD, hDv, hS, hAD⟩ := h
  by_cases hb : getNextURLs batchSize w.frontier = []
  · rw [iteration_of_idle fetch sched faults w hb]
    refine ⟨hA, hAv, ?_, ?_, ?_, ?_⟩
    · simpa [perform, Call.dispatched] using hD
    · simpa [perform, Call.dispatched] using hDv
    · simpa [perform, Call.saved] using hS
    · simpa [perform, Call.dispatched] using hAD
  · obtain ⟨trace, hp, hit⟩ := iteration_spec fetch sched faults w hb
    rw [hit, executed_of_no_fault _ hup]
    have hstore : ∀ c ∈ trace, c.isStore = true :=
      fun c hc => tasks_isStore fetch faults _ c (hp.subset hc)
    have hsaved := dispatch_saved_perm hp
    have hURL : ((trace.flatMap Call.saved).map Article.URL).Perm
        ((getNextURLs batchSize w.frontier).filter
          (fun u => (savedOf fetch faults u).isSome)) := by
      rw [← map_URL_filterMap_savedOf]
      exact hsaved.map _
    have hbatchnd := getNextURLs_nodup batchSize w.frontier
    have hnew : ∀ a ∈ trace.flatMap Call.saved, a.URL ∈ getNextURLs batchSize w.frontier := by
      intro a ha
      have := hURL.subset (List.mem_map_of_mem Article.URL ha)
      exact (List.mem_filter.1 this).1
    have hcalls : (w.calls ++ [Call.getNextURLs batchSize]
        ++ [Call.markURLsAsVisited (getNextURLs batchSize w.frontier) faults.update]
        ++ (getNextURLs batchSize w.frontier).map Call.processURL ++ trace).flatMap
          Call.dispatched
        = w.calls.flatMap Call.dispatched ++ getNextURLs batchSize w.frontier := by
      simp [List.flatMap_append, flatMap_dispatched_dispatches,
        flatMap_dispatched_store hstore, Call.dispatched]
    have hcallsS : (w.calls ++ [Call.getNextURLs batchSize]
        ++ [Call.markURLsAsVisited (getNextURLs batchSize w.frontier) faults.update]
        ++ (getNextURLs batchSize w.frontier).map Call.processURL ++ trace).flatMap
          Call.saved
        = w.articles ++ trace.flatMap Call.saved := by
      simp [List.flatMap_append, flatMap_saved_dispatches, Call.saved, hS]
    refine ⟨?_, ?_, ?_, ?_, hcallsS, ?_⟩
    · show ((w.articles ++ trace.flatMap Call.saved).map Article.URL).Nodup
      rw [List.map_append, List.nodup_append]
      refine ⟨hA, hURL.nodup_iff.2 (hbatchnd.filter _), ?_⟩
      intro x hx1 hx2
      obtain ⟨a, ha, rfl⟩ := List.mem_map.1 hx1
      obtain ⟨b, hb2, hab⟩ := List.mem_map.1 hx2
      have h1 := hnew b hb2
      rw [hab] at h1
      exact not_mem_getNextURLs_of_claimed (hAv a ha) batchSize h1
    · intro a ha
      show visitedFlag a.URL (insertEach _ (markEach _ w.frontier)) = some true
      rcases List.mem_append.1 ha with h1 | h1
      · exact visitedFlag_claimed_after _ _ (hAv a h1)
      · exact visitedFlag_batch_after _ (hnew a h1) (mem_urls_of_mem_getNextURLs (hnew a h1))
    · rw [hcalls, List.nodup_append]
      refine ⟨hD, hbatchnd, ?_⟩
      intro x hx1 hx2
      exact not_mem_getNextURLs_of_claimed (hDv x hx1) batchSize hx2
    · intro u hu
      rw [hcalls] at hu
      show visitedFlag u (insertEach _ (markEach _ w.frontier)) = some true
      rcases List.mem_append.1 hu with h1 | h1
      · exact visitedFlag_claimed_after _ _ (hDv u h1)
      · exact visitedFlag_batch_after _ h1 (mem_urls_of_mem_getNextURLs h1)
    · intro a ha
      rw [hcalls]
      rcases List.mem_append.1 ha with h1 | h1
      · exact List.mem_append_left _ (hAD a h1)
      · exact List.mem_append_right _ (hnew a h1)

theorem crawlInvariant_main (fetch : String → Except String Node) (sched : Nat → List Nat)
    (faults : Nat → Faults) (hup : ∀ k, ∀ b ∈ (faults k).update, b = false)
    (fuel : Nat) (w : World) (h : CrawlInvariant w) :
    CrawlInvariant (main fetch sched faults fuel w).1 := by
  induction fuel generalizing w with
  | zero => exact h
  | succ k ih =>
    have hstep := crawlInvariant_iteration fetch (sched k) (faults k) (hup k) w h
    unfold main
    split
    · exact hstep
    · exact ih _ hstep

/-- C10, as stated, fails when an UPDATE fails: on a fresh crawl the UPDATE for
the seed `a` fails once, in the first generation; `a` is dispatched all the
same and stays unvisited, so the second generation dispatches it again and the
article store holds two rows for `a`. -/
theorem failed_update_gives_two_articles :
    (main exampleFetch (fun _ => [])
        (fun k => if k = 1 then firstUpdateFails else noFaults) 2
        (World.mk seedWorld.frontier [] [])).1.articles.map Article.URL
      = ["https://www.eenadu.net/a", "https://www.eenadu.net/a"] ∧
    ((main exampleFetch (fun _ => [])
        (fun k => if k = 1 then firstUpdateFails else noFaults) 2
        (World.mk seedWorld.frontier [] [])).1.calls.flatMap Call.dispatched).count
        "https://www.eenadu.net/a" = 2 := by
  decide

/-- C10, amended. For every frontier (at most one row per URL), every
assignment of fetch results, every interleaving, every number of iterations
and every choice of failing statements in which no UPDATE of
`markURLsAsVisited` fails (the INSERT statements may): in the state `main` has
reached from that frontier and an empty article store, no two article rows
share a URL (so each URL has at most one row); no URL was dispatched to
`processURL` twice; the article rows are exactly the articles the logged
`insertArticle` calls saved; and `insertArticle` saved an article for a URL at
most as often as the URL was dispatched, which is at most once. -/
theorem at_most_one_article_per_url (fetch : String → Except String Node)
    (sched : Nat → List Nat) (faults : Nat → Faults)
    (hup : ∀ k, ∀ b ∈ (faults k).update, b = false) (fuel : Nat) (db : Frontier) :
    ((main fetch sched faults fuel ⟨db, [], []⟩).1.articles.map Article.URL).Nodup ∧
    (∀ u, ((main fetch sched faults fuel ⟨db, [], []⟩).1.articles.filter
      (fun a => a.URL = u)).length ≤ 1) ∧
    ((main fetch sched faults fuel ⟨db, [], []⟩).1.calls.flatMap Call.dispatched).Nodup ∧
    (main fetch sched faults fuel ⟨db, [], []⟩).1.calls.flatMap Call.saved
      = (main fetch sched faults fuel ⟨db, [], []⟩).1.articles ∧
    (∀ u, (((main fetch sched faults fuel ⟨db, [], []⟩).1.calls.flatMap Call.saved).filter
        (fun a => a.URL = u)).length
      ≤ ((main fetch sched faults fuel ⟨db, [], []⟩).1.calls.flatMap Call.dispatched).count u ∧
      ((main fetch sched faults fuel ⟨db, [], []⟩).1.calls.flatMap Call.dispatched).count u
        ≤ 1) := by
  have h0 : CrawlInvariant ⟨db, [], []⟩ := by
    refine ⟨List.nodup_nil, ?_, List.nodup_nil, ?_, rfl, ?_⟩ <;> simp
  obtain ⟨hA, -, hD, -, hS, hAD⟩ := crawlInvariant_main fetch sched faults hup fuel _ h0
  have hle : ∀ u, ((main fetch sched faults fuel ⟨db, [], []⟩).1.articles.filter
      (fun a => a.URL = u)).length ≤ 1 := by
    intro u
    rw [length_filter_URL]
    exact List.nodup_iff_count_le_one.1 hA u
  refine ⟨hA, hle, hD, hS, ?_⟩
  intro u
  refine ⟨?_, List.nodup_iff_count_le_one.1 hD u⟩
  rw [hS]
  by_cases hmem : u ∈ (main fetch sched faults fuel ⟨db, [], []⟩).1.calls.flatMap
      Call.dispatched
  · exact le_trans (hle u) (List.count_pos_iff.2 hmem)
  · have : (main fetch sched faults fuel ⟨db, [], []⟩).1.articles.filter
        (fun a => a.URL = u) = [] := by
      rw [List.filter_eq_nil_iff]
      intro a ha hau
      simp only [decide_eq_true_eq] at hau
      exact hmem (hau ▸ hAD a ha)
    rw [this]
    exact Nat.zero_le _

theorem at_most_one_article_per_url_witness :
    (∀ k, ∀ b ∈ ((fun _ => noFaults : Nat → Faults) k).update, b = false) ∧
    (main exampleFetch (fun _ => [0]) (fun _ => noFaults) 3
        (World.mk seedWorld.frontier [] [])).1.articles
      = [⟨"https://www.eenadu.net/a", "T", "", "p1\n\n"⟩] ∧
    ((main exampleFetch (fun _ => [0]) (fun _ => noFaults) 3
        (World.mk seedWorld.frontier [] [])).1.articles.map Article.URL).Nodup ∧
    ((main exampleFetch (fun _ => [0]) (fun _ => noFaults) 3
        (World.mk seedWorld.frontier [] [])).1.calls.flatMap Call.dispatched).Nodup :=
  ⟨(fun _ b hb => nomatch hb), (by decide),
    (at_most_one_article_per_url exampleFetch (fun _ => [0]) (fun _ => noFaults)
      (fun _ b hb => nomatch hb) 3 seedWorld.frontier).1,
    (at_most_one_article_per_url exampleFetch (fun _ => [0]) (fun _ => noFaults)
      (fun _ b hb => nomatch hb) 3 seedWorld.frontier).2.2.1⟩

/-! ## C3: a failed fetch is isolated -/

theorem mem_rows_insertEach (links : List String) (db : Frontier) (r : URLRecord) :
    r ∈ (insertEach links db).rows ↔
      r ∈ db.rows ∨ ∃ x ∈ links, x ∉ db.urls ∧ r = freshRow x := by
  obtain ⟨added, hrows, -, hmem⟩ := insertEach_rows links db
  rw [hrows, List.mem_append, List.mem_map]
  constructor
  · rintro (h | ⟨x, hx, rfl⟩)
    · exact Or.inl h
    · exact Or.inr ⟨x, ((hmem x).1 hx).1, ((hmem x).1 hx).2, rfl⟩
  · rintro (h | ⟨x, hx, hk, rfl⟩)
    · exact Or.inl h
    · exact Or.inr ⟨x, (hmem x).2 ⟨hx, hk⟩, rfl⟩

/-- The table `insertEach` leaves depends on the proposed URLs as a set
only, up to the order of the new rows. -/
theorem insertEach_rows_perm {l1 l2 : List String} (db : Frontier)
    (h : ∀ x, x ∈ l1 ↔ x ∈ l2) :
    (insertEach l1 db).rows.Perm (insertEach l2 db).rows := by
  rw [List.perm_ext_iff_of_nodup (List.Nodup.of_map _ (insertEach l1 db).key)
    (List.Nodup.of_map _ (insertEach l2 db).key)]
  intro r
  rw [mem_rows_insertEach, mem_rows_insertEach]
  constructor
  · rintro (h1 | ⟨x, hx, hk, hr⟩)
    · exact Or.inl h1
    · exact Or.inr ⟨x, (h x).1 hx, hk, hr⟩
  · rintro (h1 | ⟨x, hx, hk, hr⟩)
    · exact Or.inl h1
    · exact Or.inr ⟨x, (h x).2 hx, hk, hr⟩

theorem extractContent_congr {fetch1 fetch2 : String → Except String Node} {v : String}
    (h : fetch1 v = fetch2 v) : extractContent fetch1 v = extractContent fetch2 v := by
  unfold extractContent
  rw [h]

theorem savedOf_congr {fetch1 fetch2 : String → Except String Node} (faults : Faults)
    {v : String} (h : fetch1 v = fetch2 v) : savedOf fetch1 faults v = savedOf fetch2 faults v := by
  unfold savedOf articleOf
  rw [extractContent_congr h]

theorem insertedOf_congr {fetch1 fetch2 : String → Except String Node} (faults : Faults)
    {v : String} (h : fetch1 v = fetch2 v) :
    insertedOf fetch1 faults v = insertedOf fetch2 faults v := by
  unfold insertedOf linksOf
  rw [extractContent_congr h]

theorem processURL_congr {fetch1 fetch2 : String → Except String Node} (faults : Faults)
    {v : String} (h : fetch1 v = fetch2 v) :
    processURL fetch1 faults v = processURL fetch2 faults v := by
  unfold processURL
  rw [extractContent_congr h]

theorem filterMap_savedOf_filter_ne (fetch : String → Except String Node) (faults : Faults)
    (u : String) (batch : List String) :
    (batch.filterMap (savedOf fetch faults)).filter (fun a => a.URL ≠ u)
      = (batch.filter (fun v => v ≠ u)).filterMap (savedOf fetch faults) := by
  induction batch with
  | nil => rfl
  | cons v vs ih =>
    simp only [ne_eq, decide_not] at ih ⊢
    cases h : savedOf fetch faults v with
    | none =>
      by_cases hv : v = u
      · rw [List.filterMap_cons, h, List.filter_cons, ih]
        simp [hv]
      · rw [List.filterMap_cons, h, List.filter_cons, ih]
        simp [hv, List.filterMap_cons, h]
    | some a =>
      have ha := savedOf_URL h
      by_cases hv : v = u
      · have hau : a.URL = u := ha.trans hv
        rw [List.filterMap_cons, h, List.filter_cons, List.filter_cons, ih]
        simp [hv, hau]
      · have hau : ¬ a.URL = u := fun e => hv (ha.symm.trans e)
        rw [List.filterMap_cons, h, List.filter_cons, List.filter_cons, ih]
        simp [hv, hau, List.filterMap_cons, h]

/-- C3, as stated, fails when the UPDATE for `u` fails: in a batch of `d` and
`a` the fetch of `d` fails and so does its UPDATE; after the generation `d` is
unvisited, and `getNextURLs` offers it again. -/
theorem failed_fetch_after_failed_update_is_retried :
    getNextURLs batchSize siblingWorld.frontier
      = ["https://www.eenadu.net/d", "https://www.eenadu.net/a"] ∧
    extractContent exampleFetch "https://www.eenadu.net/d" = Except.error "no route" ∧
    visitedFlag "https://www.eenadu.net/d"
      (iteration exampleFetch [] firstUpdateFails siblingWorld).1.frontier = some false ∧
    "https://www.eenadu.net/d" ∈ getNextURLs batchSize
      (iteration exampleFetch [] firstUpdateFails siblingWorld).1.frontier := by
  refine ⟨by decide, by rfl, by decide, by decide⟩

/-- C3, amended. For every state, every assignment of fetch results, every
interleaving, every choice of statements that fail and every URL `u` of the
batch whose `extractContent` returns an error: the goroutine of `u` makes no
store call (no `insertArticle`, no `insertNewURLs`); after the iteration the
article rows for `u` are those there before; `u` is visited if its UPDATE was
executed and still unvisited if it failed; had the fetch of `u` given anything
else, every other URL would have had the same store calls made for it, the
article rows for the other URLs would be the same up to order, and the
frontier would have every row it has now, any further row being a link of `u`;
and had no goroutine been started for `u`, both stores would be as they are
now, up to the order of the new rows. -/
theorem fetch_failure_isolated (fetch : String → Except String Node) (sched : List Nat)
    (faults : Faults) (w : World) (u : String) (err : String)
    (hu : u ∈ getNextURLs batchSize w.frontier)
    (hfail : extractContent fetch u = Except.error err) :
    processURL fetch faults u = [] ∧
    (iteration fetch sched faults w).1.articles.filter (fun a => a.URL = u)
      = w.articles.filter (fun a => a.URL = u) ∧
    (u ∈ executed (getNextURLs batchSize w.frontier) faults.update →
      visitedFlag u (iteration fetch sched faults w).1.frontier = some true) ∧
    (u ∉ executed (getNextURLs batchSize w.frontier) faults.update →
      visitedFlag u (iteration fetch sched faults w).1.frontier = some false) ∧
    (∀ (fetch2 : String → Except String Node) (sched2 : List Nat),
      (∀ v, v ≠ u → fetch2 v = fetch v) →
      (∀ v, v ≠ u → processURL fetch2 faults v = processURL fetch faults v) ∧
      ((iteration fetch2 sched2 faults w).1.articles.filter (fun a => a.URL ≠ u)).Perm
        ((iteration fetch sched faults w).1.articles.filter (fun a => a.URL ≠ u)) ∧
      (∀ r ∈ (iteration fetch sched faults w).1.frontier.rows,
        r ∈ (iteration fetch2 sched2 faults w).1.frontier.rows) ∧
      (∀ r ∈ (iteration fetch2 sched2 faults w).1.frontier.rows,
        r ∉ (iteration fetch sched faults w).1.frontier.rows → r.url ∈ linksOf fetch2 u)) ∧
    (∀ sched2 : List Nat,
      (dispatch fetch sched2 faults
        ((getNextURLs batchSize w.frontier).filter (fun v => v ≠ u))
        (perform (Call.markURLsAsVisited (getNextURLs batchSize w.frontier) faults.update)
          (perform (Call.getNextURLs batchSize) w))).articles.Perm
        (iteration fetch sched faults w).1.articles ∧
      (dispatch fetch sched2 faults
        ((getNextURLs batchSize w.frontier).filter (fun v => v ≠ u))
        (perform (Call.markURLsAsVisited (getNextURLs batchSize w.frontier) faults.update)
          (perform (Call.getNextURLs batchSize) w))).frontier.rows.Perm
        (iteration fetch sched faults w).1.frontier.rows) := by
  have hbatch : getNextURLs batchSize w.frontier ≠ [] := List.ne_nil_of_mem hu
  have hnone : articleOf fetch u = none := by simp [articleOf, hfail]
  have hsnone : savedOf fetch faults u = none := by
    unfold savedOf
    rw [hnone]
    simp
  have hlinks : insertedOf fetch faults u = [] := insertedOf_eq_nil_of_fail faults hnone
  have hk : u ∈ w.frontier.urls := mem_urls_of_mem_getNextURLs hu
  have hurls := markEach_urls (executed (getNextURLs batchSize w.frontier) faults.update)
    w.frontier
  obtain ⟨trace, hp, hit⟩ := iteration_spec fetch sched faults w hbatch
  have hsaved := dispatch_saved_perm hp
  have hne : ∀ a ∈ (getNextURLs batchSize w.frontier).filterMap (savedOf fetch faults),
      a.URL ≠ u := by
    intro a ha hau
    obtain ⟨v, -, hv⟩ := List.mem_filterMap.1 ha
    have h1 := savedOf_URL hv
    rw [hau] at h1
    rw [← h1, hsnone] at hv
    cases hv
  have hne2 : ∀ a ∈ trace.flatMap Call.saved, a.URL ≠ u :=
    fun a ha => hne a (hsaved.subset ha)
  have hmemL := dispatch_discovered_mem hp
  refine ⟨?_, ?_, ?_, ?_, ?_, ?_⟩
  · rw [processURL_eq, hnone]
  · rw [hit]
    dsimp only
    rw [List.filter_append]
    have h0 : (trace.flatMap Call.saved).filter (fun a => a.URL = u) = [] := by
      rw [List.filter_eq_nil_iff]
      intro a ha h
      exact hne2 a ha (by simpa using h)
    rw [h0, List.append_nil]
  · intro hex
    rw [hit]
    exact visitedFlag_batch_after _ hex hk
  · intro hex
    rw [hit]
    show visitedFlag u (insertEach _ (markEach _ w.frontier)) = some false
    rw [visitedFlag_insert_of_mem (hurls.symm ▸ hk), visitedFlag_mark_of_not_mem hex]
    exact unvisited_of_mem_getNextURLs hu
  · intro fetch2 sched2 hagree
    obtain ⟨trace2, hp2, hit2⟩ := iteration_spec fetch2 sched2 faults w hbatch
    have hsaved2 := dispatch_saved_perm hp2
    have hmemL2 := dispatch_discovered_mem hp2
    refine ⟨fun v hv => processURL_congr faults (hagree v hv), ?_, ?_, ?_⟩
    · rw [hit, hit2]
      dsimp only
      rw [List.filter_append, List.filter_append]
      apply List.Perm.append_left
      have e1 := hsaved2.filter (fun a => a.URL ≠ u)
      have e2 := hsaved.filter (fun a => a.URL ≠ u)
      rw [filterMap_savedOf_filter_ne] at e1 e2
      have e3 : ((getNextURLs batchSize w.frontier).filter (fun v => v ≠ u)).filterMap
          (savedOf fetch2 faults)
          = ((getNextURLs batchSize w.frontier).filter (fun v => v ≠ u)).filterMap
            (savedOf fetch faults) := by
        apply List.filterMap_congr
        intro v hv
        exact savedOf_congr faults (hagree v (by simpa using (List.mem_filter.1 hv).2))
      rw [e3] at e1
      exact e1.trans e2.symm
    · intro r hr
      rw [hit] at hr
      rw [hit2]
      dsimp only at hr ⊢
      rw [mem_rows_insertEach] at hr ⊢
      rcases hr with h | ⟨x, hx, hk2, hr⟩
      · exact Or.inl h
      · obtain ⟨v, hv, hxv⟩ := (hmemL x).1 hx
        have hvu : v ≠ u := by
          intro e
          rw [e, hlinks] at hxv
          cases hxv
        refine Or.inr ⟨x, (hmemL2 x).2 ⟨v, hv, ?_⟩, hk2, hr⟩
        rw [insertedOf_congr faults (hagree v hvu)]
        exact hxv
    · intro r hr hnot
      rw [hit2] at hr
      rw [hit] at hnot
      dsimp only at hr hnot
      rw [mem_rows_insertEach] at hr hnot
      rcases hr with h | ⟨x, hx, hk2, hr⟩
      · exact absurd (Or.inl h) hnot
      · obtain ⟨v, hv, hxv⟩ := (hmemL2 x).1 hx
        by_cases hvu : v = u
        · rw [hr, ← hvu]
          exact (executed_sublist _ _).subset hxv
        · exfalso
          apply hnot
          refine Or.inr ⟨x, (hmemL x).2 ⟨v, hv, ?_⟩, hk2, hr⟩
          rw [← insertedOf_congr faults (hagree v hvu)]
          exact hxv
  · intro sched2
    obtain ⟨trace3, hp3, hd3⟩ := dispatch_spec fetch sched2 faults
      ((getNextURLs batchSize w.frontier).filter (fun v => v ≠ u))
      (perform (Call.markURLsAsVisited (getNextURLs batchSize w.frontier) faults.update)
        (perform (Call.getNextURLs batchSize) w))
    rw [hd3, hit]
    constructor
    · show (w.articles ++ trace3.flatMap Call.saved).Perm
        (w.articles ++ trace.flatMap Call.saved)
      apply List.Perm.append_left
      have e3 := dispatch_saved_perm hp3
      rw [← filterMap_savedOf_filter_ne,
        List.filter_eq_self.2 (by intro a ha; simpa using hne a ha)] at e3
      exact e3.trans hsaved.symm
    · show (insertEach (trace3.flatMap Call.discovered)
          (markURLsAsVisited (getNextURLs batchSize w.frontier) faults.update
            w.frontier)).rows.Perm
        (insertEach (trace.flatMap Call.discovered)
          (markEach (executed (getNextURLs batchSize w.frontier) faults.update)
            w.frontier)).rows
      rw [markURLsAsVisited_eq]
      apply insertEach_rows_perm
      intro x
      rw [dispatch_discovered_mem hp3, hmemL]
      constructor
      · rintro ⟨v, hv, hx⟩
        exact ⟨v, (List.mem_filter.1 hv).1, hx⟩
      · rintro ⟨v, hv, hx⟩
        have hvu : v ≠ u := by
          intro e
          rw [e, hlinks] at hx
          cases hx
        exact ⟨v, List.mem_filter.2 ⟨hv, by simpa using hvu⟩, hx⟩

theorem fetch_failure_isolated_witness :
    "https://www.eenadu.net/d" ∈ getNextURLs batchSize siblingWorld.frontier ∧
    extractContent exampleFetch "https://www.eenadu.net/d" = Except.error "no route" ∧
    "https://www.eenadu.net/d"
      ∈ executed (getNextURLs batchSize siblingWorld.frontier) insertsFail.update ∧
    processURL exampleFetch insertsFail "https://www.eenadu.net/d" = [] ∧
    (iteration exampleFetch [1, 0, 1] insertsFail siblingWorld).1.articles.filter
        (fun a => a.URL = "https://www.eenadu.net/d")
      = siblingWorld.articles.filter (fun a => a.URL = "https://www.eenadu.net/d") ∧
    visitedFlag "https://www.eenadu.net/d"
        (iteration exampleFetch [1, 0, 1] insertsFail siblingWorld).1.frontier = some true ∧
    (iteration exampleFetch [1, 0, 1] noFaults siblingWorld).1.articles
      = [⟨"https://www.eenadu.net/a", "T", "", "p1\n\n"⟩] := by
  have h := fetch_failure_isolated exampleFetch [1, 0, 1] insertsFail siblingWorld
    "https://www.eenadu.net/d" "no route" (by decide) (by rfl)
  exact ⟨by decide, by rfl, by decide, h.1, h.2.1, h.2.2.1 (by decide), by decide⟩

/-! ## C7: heading and date -/

theorem foldl_text (s : Selection) (buf : String) :
    s.foldl (fun buf n => buf ++ getNodeText n.node) buf = buf ++ text s := by
  unfold text
  induction s generalizing buf with
  | nil => simp
  | cons n rest ih =>
    simp only [List.foldl_cons]
    rw [ih, ih ("" ++ getNodeText n.node), String.empty_append, String.append_assoc]

theorem text_nil : text [] = "" := rfl

theorem text_cons (n : Located) (rest : Selection) :
    text (n :: rest) = getNodeText n.node ++ text rest := by
  show List.foldl _ ("" ++ getNodeText n.node) rest = _
  rw [foldl_text, String.empty_append]

theorem text_singleton (n : Located) : text [n] = getNodeText n.node := by
  rw [text_cons, text_nil, String.append_empty]

theorem text_eq_join (s : Selection) :
    text s = String.join (s.map (fun n => getNodeText n.node)) := by
  unfold text String.join
  rw [List.foldl_map]

/-- C7, as stated, fails: with two `h1` elements "X" and "Y" the title is "XY",
not the text "X" of the first, and with two `div.pub-t` elements the date is
the text of both. -/
theorem heading_is_not_first_match_only :
    extractHeading twoHeadings = "XY" ∧
    ((find twoHeadings (tagSelector "h1")).head?).map (fun n => getNodeText n.node)
      = some "X" ∧
    extractDatePublished twoHeadings = "D1D2" ∧
    ((find twoHeadings datePublishedSelector).head?).map (fun n => getNodeText n.node)
      = some "D1" := by
  decide

/-- C7, amended. For every selection, `extractHeading` returns the texts of
all the `h1` elements found under it, concatenated in the order found, and
`extractDatePublished` the texts of all the `div.pub-t` elements: the text of
the first followed by the text of the others, which is the text of the first
when one element is found, and the empty string when none is. -/
theorem heading_and_date_concatenate_all (s : Selection) :
    extractHeading s
      = String.join ((find s (tagSelector "h1")).map (fun n => getNodeText n.node)) ∧
    extractDatePublished s
      = String.join ((find s datePublishedSelector).map (fun n => getNodeText n.node)) ∧
    (∀ n rest, find s (tagSelector "h1") = n :: rest →
      extractHeading s = getNodeText n.node ++ text rest) ∧
    (∀ n rest, find s datePublishedSelector = n :: rest →
      extractDatePublished s = getNodeText n.node ++ text rest) ∧
    (∀ n, find s (tagSelector "h1") = [n] → extractHeading s = getNodeText n.node) ∧
    (∀ n, find s datePublishedSelector = [n] →
      extractDatePublished s = getNodeText n.node) ∧
    (find s (tagSelector "h1") = [] → extractHeading s = "") ∧
    (find s datePublishedSelector = [] → extractDatePublished s = "") := by
  unfold extractHeading extractDatePublished
  refine ⟨text_eq_join _, text_eq_join _, ?_, ?_, ?_, ?_, ?_, ?_⟩
  · intro n rest h
    rw [h, text_cons]
  · intro n rest h
    rw [h, text_cons]
  · intro n h
    rw [h, text_singleton]
  · intro n h
    rw [h, text_singleton]
  · intro h
    rw [h, text_nil]
  · intro h
    rw [h, text_nil]

/-! ## C8: the layout of the body text -/

theorem foldl_join (l : List String) (acc : String) :
    l.foldl (fun r s => r ++ s) acc = acc ++ String.join l := by
  induction l generalizing acc with
  | nil => simp [String.join]
  | cons x xs ih =>
    have h1 : String.join (x :: xs) = x ++ String.join xs := by
      show List.foldl _ ("" ++ x) xs = _
      rw [ih, String.empty_append]
    simp only [List.foldl_cons]
    rw [ih, h1, String.append_assoc]

theorem join_cons (x : String) (xs : List String) :
    String.join (x :: xs) = x ++ String.join xs := by
  show List.foldl _ ("" ++ x) xs = _
  rw [foldl_join, String.empty_append]

theorem foldl_paragraphs (ps : Selection) (acc : String) :
    ps.foldl (fun acc p => acc ++ (text [p] ++ "\n\n")) acc
      = acc ++ String.join (ps.map (fun p => getNodeText p.node ++ "\n\n")) := by
  rw [← foldl_join, List.foldl_map]
  simp only [text_singleton]

theorem extractText_eq_join (s : Selection) :
    extractText s
      = String.join ((find s (tagSelector "p")).map (fun p => getNodeText p.node ++ "\n\n")) := by
  unfold extractText
  rw [foldl_paragraphs, String.empty_append]

theorem join_data (l : List String) :
    (String.join l).data = (l.map String.data).flatten := by
  have h : ∀ (l : List String) (acc : String),
      (l.foldl (fun r s => r ++ s) acc).data = acc.data ++ (l.map String.data).flatten := by
    intro l
    induction l with
    | nil => simp
    | cons x xs ih =>
      intro acc
      simp only [List.foldl_cons, List.map_cons, List.flatten_cons]
      rw [ih, String.data_append, List.append_assoc]
  have := h l ""
  simpa [String.join] using this

/-- One piece of the split: a text with no double newline that does not end in
a newline is read up to the separator that follows it. -/
theorem splitDoubleNewlineAux_piece (tail : List Char) (p : List Char) :
    ∀ (cur : List Char) (nl : Bool),
      (nl = true → p ≠ [] ∧ p.head? ≠ some '\n') →
      ¬ ['\n', '\n'] <:+: p → p.getLast? ≠ some '\n' →
      splitDoubleNewlineAux cur nl (p ++ '\n' :: '\n' :: tail)
        = ((if nl then cur ++ ['\n'] else cur) ++ p) :: splitDoubleNewlineAux [] false tail := by
  induction p with
  | nil =>
    intro cur nl hnl _ _
    cases nl with
    | true => exact absurd rfl (hnl rfl).1
    | false => simp [splitDoubleNewlineAux]
  | cons c p ih =>
    intro cur nl hnl hin hlast
    have hin2 : ¬ ['\n', '\n'] <:+: p := fun h => hin (List.infix_cons h)
    have hlast2 : p.getLast? ≠ some '\n' := by
      cases p with
      | nil => simp
      | cons d q => simpa using hlast
    by_cases hc : c = '\n'
    · subst hc
      have hnlf : nl = false := by
        cases nl with
        | false => rfl
        | true => exact absurd (by simp) (hnl rfl).2
      subst hnlf
      have hp : p ≠ [] ∧ p.head? ≠ some '\n' := by
        cases p with
        | nil => simp at hlast
        | cons d q =>
          refine ⟨by simp, ?_⟩
          intro hd
          simp at hd
          subst hd
          exact hin (List.IsPrefix.isInfix ⟨q, rfl⟩)
      have := ih cur true (fun _ => hp) hin2 hlast2
      simp only [List.cons_append, splitDoubleNewlineAux, if_true] at this ⊢
      simpa using this
    · have := ih ((if nl then cur ++ ['\n'] else cur) ++ [c]) false (by simp) hin2 hlast2
      simp only [List.cons_append, splitDoubleNewlineAux, hc, if_false]
      simpa using this

theorem splitDoubleNewlineAux_pieces (ps : List (List Char))
    (h : ∀ p ∈ ps, ¬ ['\n', '\n'] <:+: p ∧ p.getLast? ≠ some '\n') :
    splitDoubleNewlineAux [] false (ps.map (fun p => p ++ ['\n', '\n'])).flatten
      = ps ++ [[]] := by
  induction ps with
  | nil => rfl
  | cons p ps ih =>
    have hp := h p (List.mem_cons_self _ _)
    have := splitDoubleNewlineAux_piece
      ((ps.map (fun p => p ++ ['\n', '\n'])).flatten) p [] false (by simp) hp.1 hp.2
    simp only [List.map_cons, List.flatten_cons, List.append_assoc, List.cons_append,
      List.nil_append]
    simp only [List.nil_append, Bool.false_eq_true, if_false] at this
    rw [this, ih (fun q hq => h q (List.mem_cons_of_mem _ hq))]

theorem extractText_data (s : Selection) :
    (extractText s).data
      = (((find s (tagSelector "p")).map (fun p => (getNodeText p.node).data)).map
          (fun p => p ++ ['\n', '\n'])).flatten := by
  rw [extractText_eq_join, join_data, List.map_map, List.map_map]
  rfl

/-- C8, as stated, fails in its last part. Two paragraphs "a\n" and "b", neither
holding a double newline, give the body "a\n\n\nb\n\n", which splits into "a",
"\nb" and an empty piece; the paragraphs "a" and "\nb" give the same body, so
nothing can tell the two apart. Even for "p1" and "p2" the split has a third,
empty piece. -/
theorem paragraphs_not_recovered_by_split :
    (find (story ["a\n", "b"]) (tagSelector "p")).map (fun p => getNodeText p.node)
      = ["a\n", "b"] ∧
    (∀ t ∈ ["a\n", "b"], ¬ "\n\n".data <:+: t.data) ∧
    extractText (story ["a\n", "b"]) = "a\n\n\nb\n\n" ∧
    splitDoubleNewline (extractText (story ["a\n", "b"])) = ["a", "\nb", ""] ∧
    extractText (story ["a", "\nb"]) = extractText (story ["a\n", "b"]) ∧
    splitDoubleNewline (extractText (story ["p1", "p2"])) = ["p1", "p2", ""] := by
  decide

/-- C8, amended. For every selection, `extractText` returns the texts of the
`p` elements found under it, in the order found, each followed by a double
newline, and the empty string when there is none; when no paragraph text
contains a double newline or ends in a newline, splitting the result on the
double newline gives the paragraph texts in order followed by one empty piece,
so dropping that last piece recovers them. -/
theorem extractText_layout (s : Selection) :
    extractText s
      = String.join ((find s (tagSelector "p")).map (fun p => getNodeText p.node ++ "\n\n")) ∧
    (find s (tagSelector "p") = [] → extractText s = "") ∧
    ((∀ p ∈ find s (tagSelector "p"),
        ¬ "\n\n".data <:+: (getNodeText p.node).data ∧
        (getNodeText p.node).data.getLast? ≠ some '\n') →
      splitDoubleNewline (extractText s)
        = (find s (tagSelector "p")).map (fun p => getNodeText p.node) ++ [""] ∧
      (splitDoubleNewline (extractText s)).dropLast
        = (find s (tagSelector "p")).map (fun p => getNodeText p.node)) := by
  refine ⟨extractText_eq_join s, ?_, ?_⟩
  · intro h
    rw [extractText_eq_join, h]
    rfl
  · intro h
    have hsplit : splitDoubleNewline (extractText s)
        = (find s (tagSelector "p")).map (fun p => getNodeText p.node) ++ [""] := by
      unfold splitDoubleNewline
      rw [extractText_data, splitDoubleNewlineAux_pieces]
      · rw [List.map_append, List.map_map]
        congr 1
      · intro q hq
        obtain ⟨p, hp, rfl⟩ := List.mem_map.1 hq
        exact h p hp
    refine ⟨hsplit, ?_⟩
    rw [hsplit, List.dropLast_concat]

theorem extractText_layout_witness :
    extractText (story ["p1", "p2"]) = "p1\n\np2\n\n" ∧
    (∀ p ∈ find (story ["p1", "p2"]) (tagSelector "p"),
      ¬ "\n\n".data <:+: (getNodeText p.node).data ∧
      (getNodeText p.node).data.getLast? ≠ some '\n') ∧
    (splitDoubleNewline (extractText (story ["p1", "p2"]))).dropLast
      = (find (story ["p1", "p2"]) (tagSelector "p")).map (fun p => getNodeText p.node) ∧
    (find (story ["p1", "p2"]) (tagSelector "p")).map (fun p => getNodeText p.node)
      = ["p1", "p2"] :=
  ⟨by decide, by decide,
    ((extractText_layout (story ["p1", "p2"])).2.2 (by decide)).2, by decide⟩

/-! ## C6: link extraction -/

mutual
theorem matchAll_nodes (m : Node → Bool) (p : List Nat) :
    ∀ n, (matchAll m p n).map Located.node = (nodesInOrder n).filter m
  | Node.text d => by
    by_cases h : m (Node.text d) = true <;> simp [matchAll, nodesInOrder, h]
  | Node.element t a cs => by
    have ih := matchAllFrom_nodes m p 0 cs
    by_cases h : m (Node.element t a cs) = true <;>
      simp [matchAll, nodesInOrder, h, ih, List.filter_cons]
theorem matchAllFrom_nodes (m : Node → Bool) (p : List Nat) (i : Nat) :
    ∀ cs, (matchAllFrom m p i cs).map Located.node = (nodesInOrderOfList cs).filter m
  | [] => rfl
  | c :: cs => by
    simp [matchAllFrom, nodesInOrderOfList, matchAll_nodes m (p ++ [i]) c,
      matchAllFrom_nodes m p (i + 1) cs]
end

mutual
theorem matchAll_paths (m : Node → Bool) (p : List Nat) :
    ∀ n, (∀ x ∈ matchAll m p n, ∃ rest, x.path = p ++ rest) ∧
      ((matchAll m p n).map Located.path).Nodup
  | Node.text d => by
    by_cases h : m (Node.text d) = true <;> simp [matchAll, h]
  | Node.element t a cs => by
    obtain ⟨ih1, ih2⟩ := matchAllFrom_paths m p 0 cs
    constructor
    · intro x hx
      simp only [matchAll, List.mem_append] at hx
      rcases hx with hx | hx
      · by_cases h : m (Node.element t a cs) = true
        · simp [h] at hx
          exact ⟨[], by simp [hx]⟩
        · simp [h] at hx
      · obtain ⟨j, rest, -, hj⟩ := ih1 x hx
        exact ⟨j :: rest, hj⟩
    · simp only [matchAll, List.map_append]
      rw [List.nodup_append]
      refine ⟨?_, ih2, ?_⟩
      · by_cases h : m (Node.element t a cs) = true <;> simp [h]
      · intro q hq1 hq2
        obtain ⟨x, hx, rfl⟩ := List.mem_map.1 hq2
        obtain ⟨j, rest, -, hj⟩ := ih1 x hx
        by_cases h : m (Node.element t a cs) = true
        · simp [h] at hq1
          rw [hj] at hq1
          have := congrArg List.length hq1
          simp at this
        · simp [h] at hq1
theorem matchAllFrom_paths (m : Node → Bool) (p : List Nat) (i : Nat) :
    ∀ cs, (∀ x ∈ matchAllFrom m p i cs, ∃ j rest, i ≤ j ∧ x.path = p ++ j :: rest) ∧
      ((matchAllFrom m p i cs).map Located.path).Nodup
  | [] => by simp [matchAllFrom]
  | c :: cs => by
    obtain ⟨h1, h2⟩ := matchAll_paths m (p ++ [i]) c
    obtain ⟨h3, h4⟩ := matchAllFrom_paths m p (i + 1) cs
    constructor
    · intro x hx
      simp only [matchAllFrom, List.mem_append] at hx
      rcases hx with hx | hx
      · obtain ⟨rest, hr⟩ := h1 x hx
        exact ⟨i, rest, Nat.le_refl _, by simp [hr]⟩
      · obtain ⟨j, rest, hij, hr⟩ := h3 x hx
        exact ⟨j, rest, by omega, hr⟩
    · simp only [matchAllFrom, List.map_append]
      rw [List.nodup_append]
      refine ⟨h2, h4, ?_⟩
      intro q hq1 hq2
      obtain ⟨x, hx, rfl⟩ := List.mem_map.1 hq1
      obtain ⟨y, hy, hxy⟩ := List.mem_map.1 hq2
      obtain ⟨rest, hr⟩ := h1 x hx
      obtain ⟨j, rest2, hij, hr2⟩ := h3 y hy
      rw [hr, hr2] at hxy
      simp at hxy
      omega
end

theorem findInChildren_nodes (m : Node → Bool) (hm : ∀ d, m (Node.text d) = false)
    (p : List Nat) (i : Nat) (cs : List Node) :
    (findInChildren m p i cs).map Located.node = (nodesInOrderOfList cs).filter m := by
  induction cs generalizing i with
  | nil => rfl
  | cons c cs ih =>
    cases c with
    | text d => simp [findInChildren, nodesInOrderOfList, nodesInOrder, Node.isElement, hm, ih]
    | element t a ds =>
      simp [findInChildren, nodesInOrderOfList, Node.isElement, matchAll_nodes, ih]

theorem findInChildren_paths (m : Node → Bool) (p : List Nat) (i : Nat) (cs : List Node) :
    (∀ x ∈ findInChildren m p i cs, ∃ j rest, i ≤ j ∧ x.path = p ++ j :: rest) ∧
      ((findInChildren m p i cs).map Located.path).Nodup := by
  induction cs generalizing i with
  | nil => simp [findInChildren]
  | cons c cs ih =>
    obtain ⟨h1, h2⟩ := matchAll_paths m (p ++ [i]) c
    obtain ⟨h3, h4⟩ := ih (i + 1)
    have hsub : ∀ x ∈ (if c.isElement = true then matchAll m (p ++ [i]) c else []),
        x ∈ matchAll m (p ++ [i]) c := by
      intro x hx
      by_cases he : c.isElement = true
      · simpa [he] using hx
      · simp [he] at hx
    constructor
    · intro x hx
      simp only [findInChildren, List.mem_append] at hx
      rcases hx with hx | hx
      · obtain ⟨rest, hr⟩ := h1 x (hsub x hx)
        exact ⟨i, rest, Nat.le_refl _, by simp [hr]⟩
      · obtain ⟨j, rest, hij, hr⟩ := h3 x hx
        exact ⟨j, rest, by omega, hr⟩
    · simp only [findInChildren, List.map_append]
      rw [List.nodup_append]
      refine ⟨?_, h4, ?_⟩
      · by_cases he : c.isElement = true
        · simpa [he] using h2
        · simp [he]
      · intro q hq1 hq2
        obtain ⟨x, hx, rfl⟩ := List.mem_map.1 hq1
        obtain ⟨y, hy, hxy⟩ := List.mem_map.1 hq2
        obtain ⟨rest, hr⟩ := h1 x (hsub x hx)
        obtain ⟨j, rest2, hij, hr2⟩ := h3 y hy
        rw [hr, hr2] at hxy
        simp at hxy
        omega

/-- Nodes at different places are all kept by `appendWithoutDuplicates`. -/
theorem appendWithoutDuplicates_of_nodup (target vals : List Located)
    (h : ((target ++ vals).map Located.path).Nodup) :
    appendWithoutDuplicates target vals = target ++ vals := by
  unfold appendWithoutDuplicates
  induction vals generalizing target with
  | nil => simp
  | cons v vs ih =>
    have hv : (target.any (fun x => decide (x.path = v.path))) = false := by
      rw [List.any_eq_false]
      intro x hx hxv
      simp only [decide_eq_true_eq] at hxv
      rw [List.map_append, List.nodup_append] at h
      exact h.2.2 (List.mem_map_of_mem Located.path hx)
        (hxv ▸ List.mem_map_of_mem Located.path (List.mem_cons_self v vs))
    simp only [List.foldl_cons, hv, Bool.false_eq_true, if_false]
    rw [ih (target ++ [v]) (by simpa using h)]
    simp

/-- On a whole document `Find` returns every matching element below the root,
once, in document order. -/
theorem find_documentSelection (doc : Node) (m : Node → Bool)
    (hm : ∀ d, m (Node.text d) = false) :
    (find (documentSelection doc) m).map Located.node
      = (nodesInOrderOfList doc.children).filter m := by
  have h : find (documentSelection doc) m = findInChildren m [] 0 doc.children := by
    show appendWithoutDuplicates [] (findInChildren m [] 0 doc.children) = _
    rw [appendWithoutDuplicates_of_nodup _ _
      (by simpa using (findInChildren_paths m [] 0 doc.children).2)]
    simp
  rw [h, findInChildren_nodes m hm]

theorem foldl_extractURLs (s : Selection) (urls : List String) :
    s.foldl (fun urls s =>
      match attr s "href" with
      | some href => if hasPrefix href baseURL then urls ++ [href] else urls
      | none => urls) urls
      = urls ++ ((s.map Located.node).filterMap (getAttributeValue "href")).filter
          (fun href => hasPrefix href baseURL) := by
  induction s generalizing urls with
  | nil => simp
  | cons n rest ih =>
    simp only [List.foldl_cons, List.map_cons, List.filterMap_cons]
    rw [ih]
    unfold attr
    cases hn : getAttributeValue "href" n.node with
    | none => simp
    | some href =>
      by_cases hp : hasPrefix href baseURL = true
      · simp [hp, List.filter_cons]
      · simp [hp, List.filter_cons]

theorem hasPrefix_iff (s pre : String) :
    hasPrefix s pre = true ↔ ∃ rest : String, s = pre ++ rest := by
  unfold hasPrefix
  rw [List.isPrefixOf_iff_prefix]
  constructor
  · rintro ⟨t, ht⟩
    exact ⟨String.mk t, String.ext (by simp [ht])⟩
  · rintro ⟨rest, rfl⟩
    exact ⟨rest.data, by simp⟩

/-- C6, as stated, fails: an anchor to `https://www.eenadu.net.evil.example/x`,
whose host is `www.eenadu.net.evil.example` and not `www.eenadu.net`, is
returned, because its `href` starts with the base URL. -/
theorem foreign_host_link_is_returned :
    extractURLs foreignLinkPage = ["https://www.eenadu.net.evil.example/x"] ∧
    httpsHost "https://www.eenadu.net.evil.example/x" = some "www.eenadu.net.evil.example" ∧
    httpsHost "https://www.eenadu.net.evil.example/x" ≠ some "www.eenadu.net" := by
  decide

/-- C6, amended. For every document, `extractURLs` returns, in document order,
exactly the `href` values of the document's anchor elements that start with the
string `https://www.eenadu.net`: every returned link is that string followed
by something (possibly more of a host name), an anchor without an `href` and
an `href` that does not start with that string contribute nothing, and a
document with no such anchor yields the empty list. -/
theorem extractURLs_prefix_match (doc : Node) :
    extractURLs doc
      = ((anchorElements doc).filterMap (getAttributeValue "href")).filter
          (fun href => hasPrefix href baseURL) ∧
    (∀ href ∈ extractURLs doc, ∃ rest : String, href = "https://www.eenadu.net" ++ rest) ∧
    (∀ href, href ∈ extractURLs doc ↔
      (∃ rest : String, href = "https://www.eenadu.net" ++ rest) ∧
      ∃ n ∈ anchorElements doc, getAttributeValue "href" n = some href) ∧
    ((∀ n ∈ anchorElements doc, ∀ href, getAttributeValue "href" n = some href →
        hasPrefix href baseURL = false) → extractURLs doc = []) := by
  have heq : extractURLs doc
      = ((anchorElements doc).filterMap (getAttributeValue "href")).filter
          (fun href => hasPrefix href baseURL) := by
    unfold extractURLs anchorElements
    rw [foldl_extractURLs, find_documentSelection doc _ (fun _ => rfl), List.nil_append]
  have hmem : ∀ href, href ∈ extractURLs doc ↔
      (∃ rest : String, href = "https://www.eenadu.net" ++ rest) ∧
      ∃ n ∈ anchorElements doc, getAttributeValue "href" n = some href := by
    intro href
    rw [heq, List.mem_filter, List.mem_filterMap, hasPrefix_iff]
    exact And.comm
  refine ⟨heq, fun href h => ((hmem href).1 h).1, hmem, ?_⟩
  intro h
  rw [heq, List.filter_eq_nil_iff]
  intro href hh
  obtain ⟨n, hn, hv⟩ := List.mem_filterMap.1 hh
  simp [h n hn href hv]

end Eenadu
